import Mathlib

/-!
A shallow embedding of the spreadsheet formula engine
(`src/utils/formulas.ts`, entry point `calculateDisplayCells`) together with
proofs about the claims of its specification.

Modelling conventions:
* JS numbers are modelled as exact rationals (`ℚ`).  Every number the engine
  manufactures from spreadsheet text is a finite decimal, and no claim in
  scope compares results that depend on IEEE-754 rounding or on non-finite
  floats; `Number.isFinite` checks are therefore vacuously true in the model
  and noted where they occur in the source.
* JS strings are Lean `String`s, processed through their character lists.
* A JS `Map` is an insertion-ordered association list with unique keys
  (`SMap` below); a JS `Set` of strings is an insertion-ordered duplicate-free
  `List String` (`insertOnce` below).
* Fallible JS functions returning `null` become `Option`-valued functions.
-/

namespace Formulas

/-! ## Character classes and shared string helpers -/

/-- JS regex class `[0-9]` (`isDigit` in the source). -/
def isDigitChar (c : Char) : Bool := '0' ≤ c && c ≤ '9'

/-- JS regex class `[a-zA-Z]` (`isAlpha` in the source). -/
def isAlphaChar (c : Char) : Bool := ('a' ≤ c && c ≤ 'z') || ('A' ≤ c && c ≤ 'Z')

/-- The whitespace characters this engine's text ever contains; used to model
`String.prototype.trim`. -/
def isWsChar (c : Char) : Bool := c = ' ' || c = '\t' || c = '\n' || c = '\r'

/-- JS `value.trim()` restricted to ASCII whitespace. -/
def trimString (s : String) : String :=
  String.mk (((s.data.dropWhile isWsChar).reverse.dropWhile isWsChar).reverse)

/-- JS `value.startsWith('=')`. -/
def startsWithEq (v : String) : Bool :=
  match v.data with
  | '=' :: _ => true
  | _ => false

/-- JS `value.slice(1)`. -/
def strDropFirst (v : String) : String := String.mk v.data.tail

/-- Digit run to its numeric value (`Number.parseInt` on a pure digit string;
exact in the model). -/
def digitsToNat (ds : List Char) : Nat := ds.foldl (fun a c => a * 10 + (c.toNat - 48)) 0

/-- Body of `NUMBER_RE = /^-?\d+(\.\d+)?$/` after the optional sign: one or
more digits followed by an optional dot-and-digits fractional part.  The two
character classes are disjoint, so the greedy split below is the unique one
the regex engine finds. -/
def numberReCore (cs : List Char) : Bool :=
  let ds := cs.takeWhile isDigitChar
  let rest := cs.dropWhile isDigitChar
  !ds.isEmpty &&
    (match rest with
     | [] => true
     | '.' :: frac => !frac.isEmpty && frac.all isDigitChar
     | _ => false)

/-- `NUMBER_RE.test s`: an optional leading minus (the source pattern allows
no plus sign) and then `numberReCore`. -/
def numberReTest (s : String) : Bool :=
  match s.data with
  | '-' :: rest => numberReCore rest
  | cs => numberReCore cs

/-- JS `Number.parseFloat` on the character data this engine feeds it: an
unsigned decimal read greedily from the front (digits, then an optional dot
and more digits), ignoring any trailing junk — `parseFloat("1.2.3") = 1.2`.
Call sites only ever pass a lexer number token (first character a digit, or a
dot followed by a digit) or a `NUMBER_RE`-matching string, so the `NaN` result
of an empty parse is unreachable. -/
def parseFloatCore (cs : List Char) : ℚ :=
  let intPart := cs.takeWhile isDigitChar
  let rest := cs.dropWhile isDigitChar
  match rest with
  | '.' :: afterDot =>
    let frac := afterDot.takeWhile isDigitChar
    (digitsToNat intPart : ℚ) + (digitsToNat frac : ℚ) / ((10 : ℚ) ^ frac.length)
  | _ => (digitsToNat intPart : ℚ)

/-- `Number.parseFloat` on a (possibly `-`-signed) string, as `toNumber` calls
it after a successful `NUMBER_RE` test. -/
def parseFloatSigned (s : String) : ℚ :=
  match s.data with
  | '-' :: rest => - parseFloatCore rest
  | cs => parseFloatCore cs

/-! ## FormulaValue and the shared numeric-coercion rule -/

/-- `type FormulaValue = number | string | null`. -/
inductive FormulaValue where
  | num (q : ℚ)
  | str (s : String)
  | null
deriving DecidableEq

/-- `isNumericValue`: finite numbers (every model rational is finite) and
`NUMBER_RE`-matching trimmed strings. -/
def isNumericValue : FormulaValue → Bool
  | .num _ => true
  | .str s => numberReTest (trimString s)
  | .null => false

/-- `toNumber`: numbers pass through unchanged; non-strings (here: `null`)
become 0; strings are trimmed, tested against `NUMBER_RE`, and parsed, with 0
for a failed test. -/
def toNumber : FormulaValue → ℚ
  | .num q => q
  | .null => 0
  | .str s =>
    let trimmed := trimString s
    if numberReTest trimmed then parseFloatSigned trimmed else 0

/-- JS `String(n)` on the numbers the claims inspect: an integral rational
prints as its decimal integer, exactly as JS prints an integral float.  A
non-integral rational keeps an exact `num/den` rendering; no claim in scope
compares the display string of a non-integral result. -/
def numToString (q : ℚ) : String :=
  if q.den = 1 then toString q.num else toString q.num ++ "/" ++ toString q.den

/-- `formatValue`: absence renders empty, numbers render via `String(n)` (the
`Number.isFinite` guard is vacuous over `ℚ`), text passes through. -/
def formatValue : FormulaValue → String
  | .null => ""
  | .num q => numToString q
  | .str s => s

/-! ## Lexer -/

inductive TokenType where
  | number | identifier | cell | operator | paren | comma | colon | eof
deriving DecidableEq

structure Token where
  type : TokenType
  value : String
deriving DecidableEq

/-- The scanning loop of `tokenize`.  The JS code appends a final `eof` token
and the parser treats reading past the end as `eof`; here the end of the list
plays that role.  The `fuel` argument only makes the recursion structural:
every step recurses on a strict suffix of `cs`, so with the initial fuel
`cs.length + 1` the invariant `cs.length < fuel` holds throughout and the
zero-fuel branch is unreachable. -/
def tokenizeAux (fuel : Nat) (cs : List Char) : List Token :=
  match fuel, cs with
  | _, [] => []
  | 0, _ => []
  | fuel + 1, c :: rest =>
    if c = ' ' || c = '\t' || c = '\n' || c = '\r' then tokenizeAux fuel rest
    else if c = '+' || c = '-' || c = '*' || c = '/' then
      ⟨.operator, String.mk [c]⟩ :: tokenizeAux fuel rest
    else if c = '(' || c = ')' then
      ⟨.paren, String.mk [c]⟩ :: tokenizeAux fuel rest
    else if c = ',' then ⟨.comma, ","⟩ :: tokenizeAux fuel rest
    else if c = ':' then ⟨.colon, ":"⟩ :: tokenizeAux fuel rest
    else if isDigitChar c || (c = '.' && isDigitChar (rest.headD ' ')) then
      ⟨.number, String.mk (c :: rest.takeWhile (fun ch => isDigitChar ch || ch = '.'))⟩ ::
        tokenizeAux fuel (rest.dropWhile (fun ch => isDigitChar ch || ch = '.'))
    else if isAlphaChar c then
      let letters := c :: rest.takeWhile isAlphaChar
      let rest1 := rest.dropWhile isAlphaChar
      let digits := rest1.takeWhile isDigitChar
      if digits.isEmpty then
        ⟨.identifier, String.mk letters⟩ :: tokenizeAux fuel rest1
      else
        ⟨.cell, String.mk (letters ++ digits)⟩ :: tokenizeAux fuel (rest1.dropWhile isDigitChar)
    else tokenizeAux fuel rest

/-- `tokenize` on a formula's text (leading `=` already stripped). -/
def tokenize (input : String) : List Token :=
  tokenizeAux (input.data.length + 1) input.data

/-! ## AST -/

/-- The `'+' | '-' | '*' | '/'` union of the source's binary node. -/
inductive BinOp where
  | add | sub | mul | div
deriving DecidableEq

/-- The `'+' | '-'` union of the source's unary node. -/
inductive UnOp where
  | plus | minus
deriving DecidableEq

/-- `type FormulaNode` (tagged union). -/
inductive FormulaNode where
  | number (value : ℚ)
  | cell (ref : String)
  | binary (op : BinOp) (left right : FormulaNode)
  | unary (op : UnOp) (operand : FormulaNode)
  | func (name : String) (args : List FormulaNode)
  | range (rangeStart rangeEnd : String)

/-- Does the ROOT constructor of a node carry a range?  A parsed top-level
AST never does (`parseExpression_not_range` below). -/
def FormulaNode.isRange : FormulaNode → Bool
  | .range _ _ => true
  | _ => false

/-! ## Parser

The JS `Parser` class threads a token index through mutually recursive
methods; here each function consumes a token list and returns the parsed node
with the unconsumed suffix, `none` on failure.  The JS methods return `null`
on failure and every caller of a `null` result propagates it into an invalid
`ParseResult`, so the token position after a failure is never observed and
dropping it loses nothing.  `fuel` dominates the recursion depth: every cycle
in the call graph consumes at least one token before recursing, and any chain
of six successive nested calls consumes at least one token, so the fuel
`6 * (length + 1)` used by `parseFormula` can never run out. -/

mutual

/-- `parseExpression`: a term followed by `(('+'|'-') term)*`. -/
def parseExpression (fuel : Nat) (ts : List Token) : Option (FormulaNode × List Token) :=
  match fuel with
  | 0 => none
  | fuel + 1 =>
    match parseTerm fuel ts with
    | none => none
    | some (node, ts1) => parseExpressionLoop fuel node ts1

/-- The `while (this.matchOperator('+', '-'))` loop of `parseExpression`. -/
def parseExpressionLoop (fuel : Nat) (node : FormulaNode) (ts : List Token) :
    Option (FormulaNode × List Token) :=
  match fuel with
  | 0 => none
  | fuel + 1 =>
    match ts with
    | ⟨.operator, v⟩ :: rest =>
      if v = "+" || v = "-" then
        match parseTerm fuel rest with
        | none => none
        | some (right, ts2) =>
          parseExpressionLoop fuel
            (.binary (if v = "+" then .add else .sub) node right) ts2
      else some (node, ts)
    | _ => some (node, ts)

/-- `parseTerm`: a unary followed by `(('*'|'/') unary)*`. -/
def parseTerm (fuel : Nat) (ts : List Token) : Option (FormulaNode × List Token) :=
  match fuel with
  | 0 => none
  | fuel + 1 =>
    match parseUnary fuel ts with
    | none => none
    | some (node, ts1) => parseTermLoop fuel node ts1

/-- The `while (this.matchOperator('*', '/'))` loop of `parseTerm`. -/
def parseTermLoop (fuel : Nat) (node : FormulaNode) (ts : List Token) :
    Option (FormulaNode × List Token) :=
  match fuel with
  | 0 => none
  | fuel + 1 =>
    match ts with
    | ⟨.operator, v⟩ :: rest =>
      if v = "*" || v = "/" then
        match parseUnary fuel rest with
        | none => none
        | some (right, ts2) =>
          parseTermLoop fuel
            (.binary (if v = "*" then .mul else .div) node right) ts2
      else some (node, ts)
    | _ => some (node, ts)

/-- `parseUnary`: a prefixed `'+'`/`'-'` or a primary. -/
def parseUnary (fuel : Nat) (ts : List Token) : Option (FormulaNode × List Token) :=
  match fuel with
  | 0 => none
  | fuel + 1 =>
    match ts with
    | ⟨.operator, v⟩ :: rest =>
      if v = "+" || v = "-" then
        match parseUnary fuel rest with
        | none => none
        | some (operand, ts1) =>
          some (.unary (if v = "-" then .minus else .plus) operand, ts1)
      else parsePrimary fuel ts
    | _ => parsePrimary fuel ts

/-- `parsePrimary`: number, cell reference, `name '(' args ')'`, or a
parenthesised expression. -/
def parsePrimary (fuel : Nat) (ts : List Token) : Option (FormulaNode × List Token) :=
  match fuel with
  | 0 => none
  | fuel + 1 =>
    match ts with
    | ⟨.number, v⟩ :: rest => some (.number (parseFloatCore v.data), rest)
    | ⟨.cell, v⟩ :: rest => some (.cell v, rest)
    | ⟨.identifier, name⟩ :: ⟨.paren, "("⟩ :: rest1 =>
      match rest1 with
      | ⟨.paren, ")"⟩ :: rest2 => some (.func name [], rest2)
      | _ =>
        match parseArguments fuel rest1 with
        | none => none
        | some (args, ts2) =>
          match ts2 with
          | ⟨.paren, ")"⟩ :: rest3 => some (.func name args, rest3)
          | _ => none
    | ⟨.identifier, _⟩ :: _ => none
    | ⟨.paren, "("⟩ :: rest =>
      match parseExpression fuel rest with
      | none => none
      | some (expr, ts1) =>
        match ts1 with
        | ⟨.paren, ")"⟩ :: rest2 => some (expr, rest2)
        | _ => none
    | _ => none

/-- The `do { argument } while (this.match('comma'))` loop of the function
call branch of `parsePrimary`. -/
def parseArguments (fuel : Nat) (ts : List Token) :
    Option (List FormulaNode × List Token) :=
  match fuel with
  | 0 => none
  | fuel + 1 =>
    match parseArgument fuel ts with
    | none => none
    | some (arg, ts1) =>
      match ts1 with
      | ⟨.comma, _⟩ :: rest =>
        match parseArguments fuel rest with
        | none => none
        | some (args, ts2) => some (arg :: args, ts2)
      | _ => some ([arg], ts1)

/-- `parseArgument`: a range (only when a cell token is directly followed by
a colon) or an expression. -/
def parseArgument (fuel : Nat) (ts : List Token) : Option (FormulaNode × List Token) :=
  match fuel with
  | 0 => none
  | fuel + 1 =>
    match ts with
    | ⟨.cell, s⟩ :: ⟨.colon, _⟩ :: rest =>
      match rest with
      | ⟨.cell, e⟩ :: rest2 => some (.range s e, rest2)
      | _ => none
    | _ => parseExpression fuel ts

end

/-- `parseFormula`: fails on an empty token stream (`bare =`), on a parse
error, or when tokens trail a complete expression; the `ParseResult` record
collapses to an `Option` over the AST. -/
def parseFormula (ts : List Token) : Option FormulaNode :=
  match ts with
  | [] => none
  | _ =>
    match parseExpression (6 * (ts.length + 1)) ts with
    | some (ast, []) => some ast
    | _ => none

/-! ## Reference resolution -/

/-- `A=1 … Z=26` digit value of a column letter (`charCodeAt` of the
uppercased letter minus 64). -/
def charColVal (c : Char) : Int := (c.toUpper.toNat : Int) - 64

/-- The `(row, col)` pair of `parseCellRef` (zero-indexed). -/
structure CellCoords where
  row : Int
  col : Int
deriving DecidableEq

/-- `parseCellRef`: match `^([a-zA-Z]+)([0-9]+)$` (the two character classes
are disjoint, so the greedy split is the unique one), accumulate the letters
in base 26, parse the digit run as a 1-indexed row, and reject negative
coordinates.  The JS `Number.isFinite(row)` guard is vacuous in the exact
model; no claim in scope feeds a 300-digit row number. -/
def parseCellRef (ref : String) : Option CellCoords :=
  let cs := ref.data
  let letters := cs.takeWhile isAlphaChar
  let rest := cs.dropWhile isAlphaChar
  if letters.isEmpty || rest.isEmpty || !rest.all isDigitChar then none
  else
    let col := letters.foldl (fun a c => a * 26 + charColVal c) 0 - 1
    let row := (digitsToNat rest : Int) - 1
    if row < 0 || col < 0 then none else some ⟨row, col⟩

/-- `getCellKey(row, col)` from `cellKey.ts`: the string `row ++ ":" ++ col`. -/
def getCellKey (row col : Int) : String := toString row ++ ":" ++ toString col

/-- The inclusive integer interval `[lo, hi]` as a list, in increasing
order. -/
def intRangeIncl (lo hi : Int) : List Int :=
  (List.range (hi + 1 - lo).toNat).map (fun (i : Nat) => lo + (i : Int))

/-- `expandRange`: resolve both corners (empty list if either fails), then
every key of the min/max rectangle in row-major order — the two nested `for`
loops of the source. -/
def expandRange (rangeStart rangeEnd : String) : List String :=
  match parseCellRef rangeStart, parseCellRef rangeEnd with
  | some s, some e =>
    ((intRangeIncl (min s.row e.row) (max s.row e.row)).map (fun row =>
      (intRangeIncl (min s.col e.col) (max s.col e.col)).map (fun col =>
        getCellKey row col))).flatten
  | _, _ => []

/-! ## Dependency collection -/

/-- JS `Set.add` on an insertion-ordered duplicate-free list. -/
def insertOnce (l : List String) (x : String) : List String :=
  if l.contains x then l else l ++ [x]

mutual

/-- `collectDependencies(node, deps)`: the source threads one mutable `Set`
through a depth-first walk; here the set is threaded explicitly in the same
visit order (left before right, arguments in order). -/
def collectDependencies (node : FormulaNode) (deps : List String) : List String :=
  match node with
  | .cell ref =>
    match parseCellRef ref with
    | some c => insertOnce deps (getCellKey c.row c.col)
    | none => deps
  | .range s e => (expandRange s e).foldl insertOnce deps
  | .binary _ l r => collectDependencies r (collectDependencies l deps)
  | .unary _ o => collectDependencies o deps
  | .func _ args => collectDependenciesList args deps
  | .number _ => deps

/-- The `for (const arg of node.args)` loop of `collectDependencies`. -/
def collectDependenciesList (args : List FormulaNode) (deps : List String) : List String :=
  match args with
  | [] => deps
  | a :: rest => collectDependenciesList rest (collectDependencies a deps)

end

/-! ## Evaluator -/

/-- `FormulaValue | FormulaValue[]` — the return type of `evaluateNode`. -/
inductive EvalResult where
  | val (v : FormulaValue)
  | arr (vs : List FormulaValue)
deriving DecidableEq

/-- `Array.isArray(value) ? value[0] ?? 0 : value`.  Note that `??` replaces
both a missing and a `null` first element with the number 0. -/
def firstOrZero : EvalResult → FormulaValue
  | .val v => v
  | .arr [] => .num 0
  | .arr (.null :: _) => .num 0
  | .arr (v :: _) => v

mutual

/-- `evaluateNode(node, getCellValue)`. -/
def evaluateNode (node : FormulaNode) (getVal : String → FormulaValue) : EvalResult :=
  match node with
  | .number v => .val (.num v)
  | .cell ref =>
    match parseCellRef ref with
    | none => .val .null
    | some c => .val (getVal (getCellKey c.row c.col))
  | .range s e => .arr ((expandRange s e).map getVal)
  | .unary op operand =>
    let numeric := toNumber (firstOrZero (evaluateNode operand getVal))
    .val (.num (match op with | .minus => -numeric | .plus => numeric))
  | .binary op l r =>
    let leftNum := toNumber (firstOrZero (evaluateNode l getVal))
    let rightNum := toNumber (firstOrZero (evaluateNode r getVal))
    match op with
    | .add => .val (.num (leftNum + rightNum))
    | .sub => .val (.num (leftNum - rightNum))
    | .mul => .val (.num (leftNum * rightNum))
    | .div =>
      if rightNum = 0 then .val (.str "#DIV/0!") else .val (.num (leftNum / rightNum))
  | .func name args =>
    let numbers := ((evaluateArgs args getVal).filter (fun v => isNumericValue v)).map toNumber
    match name.toUpper with
    | "SUM" => .val (.num (numbers.foldl (fun t v => t + v) 0))
    | "AVERAGE" =>
      .val (.num (if numbers.length = 0 then 0
                  else numbers.foldl (fun t v => t + v) 0 / (numbers.length : ℚ)))
    | "MIN" => .val (.num (match numbers with | [] => 0 | x :: xs => xs.foldl min x))
    | "MAX" => .val (.num (match numbers with | [] => 0 | x :: xs => xs.foldl max x))
    | "COUNT" => .val (.num (numbers.length : ℚ))
    | _ => .val (.str "#ERROR")

/-- The `node.args.flatMap(...)` of the function-call branch: each argument's
value, ranges spread into their elements, in argument order (`rawArgs` in the
source). -/
def evaluateArgs (args : List FormulaNode) (getVal : String → FormulaValue) :
    List FormulaValue :=
  match args with
  | [] => []
  | a :: rest =>
    (match evaluateNode a getVal with
     | .val v => [v]
     | .arr vs => vs) ++ evaluateArgs rest getVal

end

/-! ## String-keyed insertion-ordered maps (JS `Map`) -/

/-- A JS `Map` with string keys: an insertion-ordered association list whose
keys stay unique when built with `set`; `set` on an existing key updates the
value in place (a JS `Map` keeps the original insertion position). -/
structure SMap (β : Type) where
  entries : List (String × β)
deriving DecidableEq

namespace SMap

def empty {β : Type} : SMap β := ⟨[]⟩

/-- `Map.get` (first matching entry; unique when keys are unique). -/
def get? {β : Type} (m : SMap β) (k : String) : Option β :=
  (m.entries.find? (fun e => e.1 == k)).map (fun e => e.2)

/-- `Map.has`. -/
def has {β : Type} (m : SMap β) (k : String) : Bool :=
  m.entries.any (fun e => e.1 == k)

/-- `Map.set`. -/
def set {β : Type} (m : SMap β) (k : String) (v : β) : SMap β :=
  if m.has k then ⟨m.entries.map (fun e => if e.1 == k then (k, v) else e)⟩
  else ⟨m.entries ++ [(k, v)]⟩

/-- `Map.keys()` in iteration order. -/
def keys {β : Type} (m : SMap β) : List String := m.entries.map (fun e => e.1)

/-- `m.get(k) ?? d`. -/
def getD {β : Type} (m : SMap β) (k : String) (d : β) : β := (m.get? k).getD d

end SMap

/-- The input `cells: Map<string, string>` of `calculateDisplayCells`, as its
entry list in iteration order.  Hypotheses of theorems that need the JS
`Map` key-uniqueness guarantee state it as `(cells.map Prod.fst).Nodup`. -/
abbrev CellStore := List (String × String)

/-- `cells.get(key)` on the input store. -/
def storeGet? (cells : CellStore) (k : String) : Option String :=
  (cells.find? (fun e => e.1 == k)).map (fun e => e.2)

/-! ## calculateDisplayCells -/

/-- The four accumulators of the first loop of `calculateDisplayCells`. -/
structure ParseState where
  display : SMap String
  formulas : SMap FormulaNode
  formulaErrors : List String
  dependencies : SMap (List String)

/-- One iteration of the first loop of `calculateDisplayCells`: a literal
goes straight to `display`; a formula is tokenized and parsed, a failure
recorded in `formulaErrors`, a success in `formulas` with its collected
dependency set. -/
def parseStep (st : ParseState) (kv : String × String) : ParseState :=
  if !startsWithEq kv.2 then { st with display := st.display.set kv.1 kv.2 }
  else
    match parseFormula (tokenize (strDropFirst kv.2)) with
    | none => { st with formulaErrors := insertOnce st.formulaErrors kv.1 }
    | some ast =>
      { st with
          formulas := st.formulas.set kv.1 ast,
          dependencies := st.dependencies.set kv.1 (collectDependencies ast []) }

/-- The first loop of `calculateDisplayCells`. -/
def parsePhase (cells : CellStore) : ParseState :=
  cells.foldl parseStep ⟨SMap.empty, SMap.empty, [], SMap.empty⟩

/-- Adjacency (precedent → dependents, a JS `Set` each) and indegree maps. -/
structure GraphState where
  adjacency : SMap (List String)
  indegree : SMap Int

/-- The initialisation loop: every formula key gets an empty adjacency set
and indegree 0, in formula insertion order. -/
def graphInit (formulas : SMap FormulaNode) : GraphState :=
  ⟨formulas.keys.foldl (fun m k => m.set k []) SMap.empty,
   formulas.keys.foldl (fun m k => m.set k 0) SMap.empty⟩

/-- The edge loop: for each formula cell's dependency set, each dependency
that is itself a formula cell contributes a forward edge `dep → cell` and an
indegree increment for `cell`.  `adjacency.get(dep)?.add(cell)` is a no-op
when `dep` has no adjacency entry (it always has one here). -/
def addEdges (formulas : SMap FormulaNode) (dependencies : SMap (List String))
    (g : GraphState) : GraphState :=
  dependencies.entries.foldl (fun g cd =>
    cd.2.foldl (fun g dep =>
      if formulas.has dep then
        { adjacency :=
            match g.adjacency.get? dep with
            | some l => g.adjacency.set dep (insertOnce l cd.1)
            | none => g.adjacency
          indegree := g.indegree.set cd.1 (g.indegree.getD cd.1 0 + 1) }
      else g) g) g

/-- The seed loop: all indegree-0 keys, in indegree-map iteration order. -/
def seedQueue (indegree : SMap Int) : List String :=
  (indegree.entries.filter (fun e => e.2 == 0)).map (fun e => e.1)

/-- The mutable state of the Kahn loop. -/
structure KahnState where
  indegree : SMap Int
  queue : List String
  ordered : List String

/-- The inner `for (const next of adjacency.get(current) ?? [])` loop:
decrement each successor, enqueueing any that reaches exactly zero. -/
def kahnVisit (adjacency : SMap (List String)) (current : String)
    (st : KahnState) : KahnState :=
  ((adjacency.get? current).getD []).foldl (fun st next =>
    let nextCount := st.indegree.getD next 0 - 1
    { st with
        indegree := st.indegree.set next nextCount,
        queue := if nextCount = 0 then st.queue ++ [next] else st.queue }) st

/-- The `while (queue.length > 0)` loop.  `if (!current) break` in the source
stops the whole loop when the dequeued key is the empty string (the only
falsy string); real cell keys `"row:col"` are never empty.  The fuel passed
by `runKahn` only makes the loop structural: every iteration moves one node
from the queue into `ordered` and enqueues only nodes that were in neither,
so the number of iterations never exceeds the seed length plus the node
count, and the fuel below is never exhausted (`kahnLoop_spec` proves the
queue is empty when the loop stops). -/
def kahnLoop (adjacency : SMap (List String)) : Nat → KahnState → KahnState
  | 0, st => st
  | fuel + 1, st =>
    match st.queue with
    | [] => st
    | current :: rest =>
      if current = "" then { st with queue := rest }
      else
        kahnLoop adjacency fuel
          (kahnVisit adjacency current
            { st with queue := rest, ordered := st.ordered ++ [current] })

/-- Seed the queue and run Kahn's algorithm to completion. -/
def runKahn (adjacency : SMap (List String)) (indegree : SMap Int) : KahnState :=
  let queue := seedQueue indegree
  kahnLoop adjacency (queue.length + adjacency.entries.length + 1)
    ⟨indegree, queue, []⟩

/-- The three-tier value lookup closure `getCellValue` of the source: computed
formula results, then the `display` map (which at evaluation time holds
exactly the literal cells), then the raw input text, then `null`. -/
def getCellValue (computed : SMap FormulaValue) (display : SMap String)
    (cells : CellStore) (key : String) : FormulaValue :=
  if computed.has key then (computed.get? key).getD .null
  else if display.has key then
    match display.get? key with
    | some s => .str s
    | none => .null
  else
    match storeGet? cells key with
    | some s => .str s
    | none => .null

/-- The JS code casts `evaluateNode`'s result with `as FormulaValue`; the
`arr` branch is unreachable because a parsed top-level AST is never a range
node (`parseFormula_not_range` and `evaluateNode_not_range_val` below). -/
def castResult : EvalResult → FormulaValue
  | .val v => v
  | .arr _ => .str "#ERROR"

/-- One iteration of the evaluation loop: a key in `formulaErrors` or outside
`formulas` (both dead in practice, since `ordered` only ever holds formula
keys) records `'#ERROR'`; otherwise the AST is evaluated against the
three-tier lookup over the results so far. -/
def evalStep (cells : CellStore) (st : ParseState) (computed : SMap FormulaValue)
    (key : String) : SMap FormulaValue :=
  if st.formulaErrors.contains key then computed.set key (.str "#ERROR")
  else
    match st.formulas.get? key with
    | none => computed.set key (.str "#ERROR")
    | some ast =>
      computed.set key
        (castResult (evaluateNode ast (getCellValue computed st.display cells)))

/-- The evaluation loop over the topological order. -/
def evalPhase (cells : CellStore) (st : ParseState) (ordered : List String) :
    SMap FormulaValue :=
  ordered.foldl (evalStep cells st) SMap.empty

/-- One iteration of the cycle pass. -/
def cycleStep (computed : SMap FormulaValue) (e : String × FormulaNode) :
    SMap FormulaValue :=
  if computed.has e.1 then computed else computed.set e.1 (.str "#CYCLE")

/-- The cycle pass: every formula key never computed gets `'#CYCLE'`. -/
def cyclePhase (formulas : SMap FormulaNode) (computed : SMap FormulaValue) :
    SMap FormulaValue :=
  formulas.entries.foldl cycleStep computed

/-- One iteration of the formatting pass. -/
def writeStep (d : SMap String) (e : String × FormulaValue) : SMap String :=
  d.set e.1 (formatValue e.2)

/-- The formatting pass: every computed entry is written into `display`
through `formatValue`. -/
def writeBack (display : SMap String) (computed : SMap FormulaValue) : SMap String :=
  computed.entries.foldl writeStep display

/-- One iteration of the final error pass. -/
def errorStep (d : SMap String) (k : String) : SMap String :=
  if d.has k then d else d.set k "#ERROR"

/-- The final pass: parse-error keys not already displayed get `'#ERROR'`. -/
def errorPhase (display : SMap String) (formulaErrors : List String) : SMap String :=
  formulaErrors.foldl errorStep display

/-- `calculateDisplayCells(cells)` — the engine entry point. -/
def calculateDisplayCells (cells : CellStore) : SMap String :=
  let st := parsePhase cells
  let g := addEdges st.formulas st.dependencies (graphInit st.formulas)
  let kahn := runKahn g.adjacency g.indegree
  let computed := evalPhase cells st kahn.ordered
  let computed2 := cyclePhase st.formulas computed
  errorPhase (writeBack st.display computed2) st.formulaErrors

/-! ## Derived definitions used by the theorems -/

/-- The optional-sign decimal pattern exactly as claim C7 words it — sign
`'+'` or `'-'` optional, digits with an optional fractional part.  Stated
from the claim for comparison with the source's `numberReTest`, whose regex
allows no `'+'`. -/
def specSignedDecimalTest (s : String) : Bool :=
  match s.data with
  | '+' :: rest => numberReCore rest
  | '-' :: rest => numberReCore rest
  | cs => numberReCore cs

/-- What the first loop of `calculateDisplayCells` records for a key holding
text `v`: a literal lands in `display` only; a failed parse in
`formulaErrors` only; a successful parse in `formulas` and `dependencies`
only. -/
def parseOutcome (st : ParseState) (k v : String) : Prop :=
  match startsWithEq v, parseFormula (tokenize (strDropFirst v)) with
  | false, _ =>
      st.display.get? k = some v ∧ st.formulas.get? k = none ∧
      k ∉ st.formulaErrors ∧ st.dependencies.get? k = none
  | true, none =>
      st.display.get? k = none ∧ st.formulas.get? k = none ∧
      k ∈ st.formulaErrors ∧ st.dependencies.get? k = none
  | true, some ast =>
      st.display.get? k = none ∧ st.formulas.get? k = some ast ∧
      k ∉ st.formulaErrors ∧ st.dependencies.get? k = some (collectDependencies ast [])

/-- The dependency graph a Cell Store gives rise to. -/
def graphOf (cells : CellStore) : GraphState :=
  addEdges (parsePhase cells).formulas (parsePhase cells).dependencies
    (graphInit (parsePhase cells).formulas)

/-- The Kahn pass over that graph. -/
def kahnOf (cells : CellStore) : KahnState :=
  runKahn (graphOf cells).adjacency (graphOf cells).indegree

/-- The topological order the engine evaluates in. -/
def orderedOf (cells : CellStore) : List String := (kahnOf cells).ordered

/-- The computed-value store after evaluation and the cycle pass. -/
def computedOf (cells : CellStore) : SMap FormulaValue :=
  cyclePhase (parsePhase cells).formulas
    (evalPhase cells (parsePhase cells) (orderedOf cells))

/-- The formula-cell precedents of a formula cell: its collected dependency
keys restricted to keys that are themselves formula cells — exactly the
edges the Scheduler tracks. -/
def precedentsOf (cells : CellStore) (c : String) : List String :=
  (((parsePhase cells).dependencies.get? c).getD []).filter
    (fun d => (parsePhase cells).formulas.has d)

/-- `a` is a formula cell that directly reads the formula cell `b`. -/
def formulaDep (cells : CellStore) (a b : String) : Prop :=
  a ∈ (parsePhase cells).formulas.keys ∧ b ∈ precedentsOf cells a

/-- `a` reads `b` through one or more formula-cell hops. -/
def dependsOn (cells : CellStore) : String → String → Prop :=
  Relation.TransGen (formulaDep cells)

/-- `k` lies on a dependency cycle among formula cells, or depends
transitively (through formula cells only) on a cell that does. -/
def cycleBound (cells : CellStore) (k : String) : Prop :=
  ∃ c, dependsOn cells c c ∧ (k = c ∨ dependsOn cells k c)

/-- One `(cell, dep)` edge-candidate step of the edge pass; `addEdges` is
this step folded over all `(cell, dep)` pairs in processing order
(`addEdges_eq_pairs` below). -/
def edgeStep (formulas : SMap FormulaNode) (g : GraphState)
    (p : String × String) : GraphState :=
  if formulas.has p.2 then
    { adjacency :=
        match g.adjacency.get? p.2 with
        | some l => g.adjacency.set p.2 (insertOnce l p.1)
        | none => g.adjacency
      indegree := g.indegree.set p.1 (g.indegree.getD p.1 0 + 1) }
  else g

/-- The `(cell, dep)` pairs the edge pass visits, in order. -/
def depPairs (dependencies : SMap (List String)) : List (String × String) :=
  (dependencies.entries.map (fun cd => cd.2.map (fun d => (cd.1, d)))).flatten

/-- How many of `c`'s precedents are not yet ordered — the quantity the
Kahn loop keeps in its `indegree` map. -/
def remCount (cells : CellStore) (ordered : List String) (c : String) : Nat :=
  ((precedentsOf cells c).filter (fun d => !ordered.contains d)).length

/-- The formula-cell node set of a Cell Store — the vertex set of the
Scheduler's dependency graph. -/
def nodesOf (cells : CellStore) : List String := (parsePhase cells).formulas.keys

/-- One decrement step of the inner Kahn loop; `kahnVisit` is this step
folded over `current`'s adjacency list (`kahnVisit_eq_fold`). -/
def visitStep (st : KahnState) (next : String) : KahnState :=
  let nextCount := st.indegree.getD next 0 - 1
  { st with
      indegree := st.indegree.set next nextCount,
      queue := if nextCount = 0 then st.queue ++ [next] else st.queue }

/-- The running invariant of the Kahn loop over the Scheduler graph: the
queue and order hold formula cells only, a cell is never scheduled twice,
the indegree entry of a cell counts its not-yet-ordered formula-cell
precedents, every cell with no remaining precedent has been seen, queued
cells are ready, and the order built so far is topologically sorted. -/
structure KInv (cells : CellStore) (st : KahnState) : Prop where
  qN : ∀ x ∈ st.queue, x ∈ nodesOf cells
  oN : ∀ x ∈ st.ordered, x ∈ nodesOf cells
  nd : (st.ordered ++ st.queue).Nodup
  ind : ∀ c ∈ nodesOf cells,
    st.indegree.get? c = some ((remCount cells st.ordered c : Int))
  zeroQ : ∀ c ∈ nodesOf cells, remCount cells st.ordered c = 0 →
    c ∈ st.ordered ∨ c ∈ st.queue
  qZero : ∀ c ∈ st.queue, remCount cells st.ordered c = 0
  topo : ∀ i (h : i < st.ordered.length),
    ∀ d ∈ precedentsOf cells (st.ordered.get ⟨i, h⟩), d ∈ st.ordered.take i

/-- The termination measure of the Kahn loop: queue length plus the number
of formula cells not yet seen.  Every iteration shrinks it by exactly one. -/
def kahnMeasure (cells : CellStore) (st : KahnState) : Nat :=
  st.queue.length + ((nodesOf cells).filter
    (fun c => !((st.ordered ++ st.queue).contains c))).length

/-! ## Generic helpers -/

/-- A property preserved by every step of a fold is preserved by the fold. -/
theorem foldlRec {σ α : Type} (P : σ → Prop) (f : σ → α → σ) (l : List α)
    (h : ∀ s a, a ∈ l → P s → P (f s a)) (s : σ) (hs : P s) : P (l.foldl f s) := by
  induction l generalizing s with
  | nil => exact hs
  | cons a rest ih =>
    exact ih (fun s b hb => h s b (List.mem_cons_of_mem a hb)) _
      (h s a (List.mem_cons_self a rest) hs)

/-! ## SMap lemmas -/

namespace SMap

variable {β : Type}

theorem get?_empty (k : String) : (empty (β := β)).get? k = none := rfl

theorem has_eq_true_iff (m : SMap β) (k : String) :
    m.has k = true ↔ ∃ v, (k, v) ∈ m.entries := by
  simp only [has, List.any_eq_true, beq_iff_eq]
  constructor
  · rintro ⟨⟨k', v⟩, hm, h⟩
    subst h
    exact ⟨v, hm⟩
  · rintro ⟨v, hm⟩
    exact ⟨(k, v), hm, rfl⟩

theorem has_eq_false_iff (m : SMap β) (k : String) :
    m.has k = false ↔ ∀ e ∈ m.entries, e.1 ≠ k := by
  simp [has, List.any_eq_false]

theorem get?_eq_none_of_has_eq_false (m : SMap β) (k : String) (h : m.has k = false) :
    m.get? k = none := by
  rw [has_eq_false_iff] at h
  simp only [get?, Option.map_eq_none', List.find?_eq_none]
  intro e he
  simpa using h e he

theorem isSome_get?_of_has (m : SMap β) (k : String) (h : m.has k = true) :
    ∃ v, m.get? k = some v := by
  rw [has_eq_true_iff] at h
  obtain ⟨v, hv⟩ := h
  have : (m.entries.find? (fun e => e.1 == k)).isSome := by
    apply List.find?_isSome.2
    exact ⟨(k, v), hv, by simp⟩
  rcases hf : m.entries.find? (fun e => e.1 == k) with _ | e
  · rw [hf] at this
    cases this
  · exact ⟨e.2, by simp [get?, hf]⟩

theorem has_eq_false_of_get?_eq_none (m : SMap β) (k : String) (h : m.get? k = none) :
    m.has k = false := by
  by_cases hh : m.has k = true
  · obtain ⟨v, hv⟩ := isSome_get?_of_has m k hh
    rw [hv] at h
    cases h
  · simpa using hh

theorem mem_keys_iff_has (m : SMap β) (k : String) :
    k ∈ m.keys ↔ m.has k = true := by
  simp only [keys, List.mem_map, has, List.any_eq_true, beq_iff_eq]

/-- The replace branch of `set` keeps the key of every entry. -/
theorem map_fst_replace (l : List (String × β)) (k : String) (v : β) :
    (l.map (fun e => if e.1 == k then (k, v) else e)).map Prod.fst = l.map Prod.fst := by
  rw [List.map_map]
  apply List.map_congr_left
  intro e _
  by_cases he : e.1 = k
  · simp [Function.comp_def, he]
  · simp [Function.comp_def, he]

theorem find_replace_self (l : List (String × β)) (k : String) (v : β)
    (h : l.any (fun e => e.1 == k) = true) :
    (l.map (fun e => if e.1 == k then (k, v) else e)).find? (fun e => e.1 == k) =
      some (k, v) := by
  induction l with
  | nil => simp at h
  | cons e rest ih =>
    simp only [List.map_cons]
    by_cases he : e.1 = k
    · rw [if_pos (by simp [he])]
      exact List.find?_cons_of_pos _ (by simp)
    · rw [if_neg (by simp [he])]
      rw [List.find?_cons_of_neg _ (by simp [he])]
      exact ih (by simpa [List.any_cons, he] using h)

theorem find_replace_other (l : List (String × β)) (k k' : String) (v : β) (h : k' ≠ k) :
    (l.map (fun e => if e.1 == k then (k, v) else e)).find? (fun e => e.1 == k') =
      l.find? (fun e => e.1 == k') := by
  induction l with
  | nil => rfl
  | cons e rest ih =>
    simp only [List.map_cons]
    by_cases he : e.1 = k
    · rw [if_pos (by simp [he])]
      rw [List.find?_cons_of_neg _ (by simpa using Ne.symm h)]
      rw [List.find?_cons_of_neg _ (by simpa [he] using Ne.symm h)]
      exact ih
    · rw [if_neg (by simp [he])]
      by_cases he' : e.1 = k'
      · rw [List.find?_cons_of_pos _ (by simp [he']),
           List.find?_cons_of_pos _ (by simp [he'])]
      · rw [List.find?_cons_of_neg _ (by simp [he']),
           List.find?_cons_of_neg _ (by simp [he'])]
        exact ih

theorem get?_set_self (m : SMap β) (k : String) (v : β) :
    (m.set k v).get? k = some v := by
  unfold set get?
  by_cases hh : m.has k = true
  · simp only [hh, if_true]
    rw [find_replace_self m.entries k v hh]
    rfl
  · rw [if_neg (by simp [hh])]
    simp only
    rw [List.find?_append]
    have hnone : m.entries.find? (fun e => e.1 == k) = none := by
      rw [List.find?_eq_none]
      intro e he
      have := (has_eq_false_iff m k).1 (by simpa using hh) e he
      simpa using this
    simp [hnone]

theorem get?_set_other (m : SMap β) (k k' : String) (v : β) (h : k' ≠ k) :
    (m.set k v).get? k' = m.get? k' := by
  unfold set get?
  by_cases hh : m.has k = true
  · simp only [hh, if_true]
    rw [find_replace_other m.entries k k' v h]
  · rw [if_neg (by simp [hh])]
    simp only
    rw [List.find?_append]
    rcases hf : m.entries.find? (fun e => e.1 == k') with _ | e
    · simp [hf, List.find?_cons, Ne.symm h]
    · simp [hf]

theorem keys_set (m : SMap β) (k : String) (v : β) :
    (m.set k v).keys = if m.has k then m.keys else m.keys ++ [k] := by
  unfold set keys
  by_cases hh : m.has k = true
  · simp only [hh, if_true]
    exact map_fst_replace m.entries k v
  · simp [hh]

theorem has_set_self (m : SMap β) (k : String) (v : β) : (m.set k v).has k = true := by
  obtain ⟨w, hw⟩ : ∃ w, (m.set k v).get? k = some w := ⟨v, get?_set_self m k v⟩
  by_contra hcon
  rw [get?_eq_none_of_has_eq_false _ _ (by simpa using hcon)] at hw
  cases hw

theorem has_set_other (m : SMap β) (k k' : String) (v : β) (h : k' ≠ k) :
    (m.set k v).has k' = m.has k' := by
  have hk : k' ∈ (m.set k v).keys ↔ k' ∈ m.keys := by
    rw [keys_set]
    by_cases hh : m.has k = true
    · simp [hh]
    · simp only [hh, Bool.false_eq_true, if_false, List.mem_append, List.mem_singleton]
      exact or_iff_left h
  by_cases h1 : m.has k' = true
  · rw [h1]
    exact (mem_keys_iff_has _ _).1 (hk.2 ((mem_keys_iff_has _ _).2 h1))
  · have h1' : m.has k' = false := by simpa using h1
    rw [h1']
    cases h2 : (m.set k v).has k' with
    | false => rfl
    | true =>
      exfalso
      have := hk.1 ((mem_keys_iff_has _ _).2 h2)
      rw [mem_keys_iff_has, h1'] at this
      cases this

theorem keys_nodup_set (m : SMap β) (k : String) (v : β) (h : m.keys.Nodup) :
    (m.set k v).keys.Nodup := by
  rw [keys_set]
  by_cases hh : m.has k = true
  · simpa [hh]
  · rw [if_neg (by simp [hh])]
    rw [List.nodup_append]
    refine ⟨h, List.nodup_singleton k, ?_⟩
    intro a ha
    simp only [List.mem_singleton]
    intro hak
    subst hak
    exact absurd ((mem_keys_iff_has m a).1 ha) (by simp [hh])

end SMap

/-! ## The parse pass -/

theorem contains_eq_true_iff (l : List String) (x : String) :
    l.contains x = true ↔ x ∈ l := by
  simp [List.contains_eq_any_beq, List.any_eq_true]

theorem insertOnce_mem (l : List String) (x y : String) :
    y ∈ insertOnce l x ↔ y ∈ l ∨ y = x := by
  unfold insertOnce
  by_cases h : l.contains x = true
  · rw [if_pos h]
    constructor
    · exact Or.inl
    · rintro (hy | rfl)
      · exact hy
      · exact (contains_eq_true_iff l y).1 h
  · rw [if_neg h]
    simp [List.mem_append]

theorem insertOnce_nodup (l : List String) (x : String) (h : l.Nodup) :
    (insertOnce l x).Nodup := by
  unfold insertOnce
  by_cases hc : l.contains x = true
  · rwa [if_pos hc]
  · rw [if_neg hc]
    rw [List.nodup_append]
    refine ⟨h, List.nodup_singleton x, ?_⟩
    intro a ha
    simp only [List.mem_singleton]
    rintro rfl
    exact hc ((contains_eq_true_iff l a).2 ha)

theorem storeGet?_cons (e : String × String) (rest : CellStore) (k : String) :
    storeGet? (e :: rest) k = if e.1 = k then some e.2 else storeGet? rest k := by
  unfold storeGet?
  by_cases h : e.1 = k
  · rw [if_pos h, List.find?_cons_of_pos _ (by simp [h])]
    rfl
  · rw [if_neg h, List.find?_cons_of_neg _ (by simp [h])]

/-- One parse step leaves every other key alone, in all four accumulators. -/
theorem parseStep_frame (st : ParseState) (kv : String × String) (k : String)
    (h : kv.1 ≠ k) :
    (parseStep st kv).display.get? k = st.display.get? k ∧
    (parseStep st kv).formulas.get? k = st.formulas.get? k ∧
    (parseStep st kv).dependencies.get? k = st.dependencies.get? k ∧
    (k ∈ (parseStep st kv).formulaErrors ↔ k ∈ st.formulaErrors) := by
  unfold parseStep
  by_cases h1 : startsWithEq kv.2 = true
  · rw [if_neg (by simp [h1])]
    cases hp : parseFormula (tokenize (strDropFirst kv.2)) with
    | none =>
      refine ⟨rfl, rfl, rfl, ?_⟩
      rw [insertOnce_mem]
      exact or_iff_left (Ne.symm (by simpa using h))
    | some ast =>
      exact ⟨rfl, SMap.get?_set_other _ _ _ _ (Ne.symm h),
        SMap.get?_set_other _ _ _ _ (Ne.symm h), Iff.rfl⟩
  · rw [if_pos (by simpa using h1)]
    exact ⟨SMap.get?_set_other _ _ _ _ (Ne.symm h), rfl, rfl, Iff.rfl⟩

/-- Folding the parse step over entries whose keys avoid `k` leaves `k`
alone. -/
theorem parseFold_frame (l : CellStore) (st : ParseState) (k : String)
    (h : ∀ e ∈ l, e.1 ≠ k) :
    (l.foldl parseStep st).display.get? k = st.display.get? k ∧
    (l.foldl parseStep st).formulas.get? k = st.formulas.get? k ∧
    (l.foldl parseStep st).dependencies.get? k = st.dependencies.get? k ∧
    (k ∈ (l.foldl parseStep st).formulaErrors ↔ k ∈ st.formulaErrors) := by
  refine foldlRec (fun s =>
    s.display.get? k = st.display.get? k ∧
    s.formulas.get? k = st.formulas.get? k ∧
    s.dependencies.get? k = st.dependencies.get? k ∧
    (k ∈ s.formulaErrors ↔ k ∈ st.formulaErrors)) parseStep l ?_ st
    ⟨rfl, rfl, rfl, Iff.rfl⟩
  intro s e he hs
  obtain ⟨f1, f2, f3, f4⟩ := parseStep_frame s e k (h e he)
  exact ⟨f1.trans hs.1, f2.trans hs.2.1, f3.trans hs.2.2.1, f4.trans hs.2.2.2⟩

/-- The per-key record of the parse pass survives steps at other keys. -/
theorem parseOutcome_frame (s s' : ParseState) (k v : String)
    (h1 : s'.display.get? k = s.display.get? k)
    (h2 : s'.formulas.get? k = s.formulas.get? k)
    (h3 : s'.dependencies.get? k = s.dependencies.get? k)
    (h4 : k ∈ s'.formulaErrors ↔ k ∈ s.formulaErrors)
    (h : parseOutcome s k v) : parseOutcome s' k v := by
  unfold parseOutcome at h ⊢
  cases hs : startsWithEq v with
  | false =>
    rw [hs] at h
    obtain ⟨a, b, c, d⟩ := h
    exact ⟨h1.trans a, h2.trans b, fun hc => c (h4.1 hc), h3.trans d⟩
  | true =>
    rw [hs] at h
    cases hp : parseFormula (tokenize (strDropFirst v)) with
    | none =>
      rw [hp] at h
      obtain ⟨a, b, c, d⟩ := h
      exact ⟨h1.trans a, h2.trans b, h4.2 c, h3.trans d⟩
    | some ast =>
      rw [hp] at h
      obtain ⟨a, b, c, d⟩ := h
      exact ⟨h1.trans a, h2.trans b, fun hc => c (h4.1 hc), h3.trans d⟩

/-- The parse step at its own key, starting from a state not mentioning the
key. -/
theorem parseStep_self (st : ParseState) (kv : String × String)
    (hd : st.display.get? kv.1 = none) (hf : st.formulas.get? kv.1 = none)
    (he : kv.1 ∉ st.formulaErrors) (hdep : st.dependencies.get? kv.1 = none) :
    parseOutcome (parseStep st kv) kv.1 kv.2 := by
  unfold parseOutcome parseStep
  cases h1 : startsWithEq kv.2 with
  | true =>
    cases hp : parseFormula (tokenize (strDropFirst kv.2)) with
    | none =>
      refine ⟨hd, hf, ?_, hdep⟩
      show kv.1 ∈ insertOnce st.formulaErrors kv.1
      rw [insertOnce_mem]
      exact Or.inr rfl
    | some ast =>
      exact ⟨hd, SMap.get?_set_self _ _ _, he, SMap.get?_set_self _ _ _⟩
  | false =>
    exact ⟨SMap.get?_set_self _ _ _, hf, he, hdep⟩

/-- The parse pass, viewed at one key of the store (keys unique): the key's
raw text alone decides which accumulator records it. -/
theorem parseFold_at (cells : CellStore) (st : ParseState) (k v : String)
    (hnd : (cells.map Prod.fst).Nodup) (hget : storeGet? cells k = some v)
    (hd : st.display.get? k = none) (hf : st.formulas.get? k = none)
    (he : k ∉ st.formulaErrors) (hdep : st.dependencies.get? k = none) :
    parseOutcome (cells.foldl parseStep st) k v := by
  induction cells generalizing st with
  | nil => cases hget
  | cons e rest ih =>
    rw [storeGet?_cons] at hget
    by_cases hek : e.1 = k
    · rw [if_pos hek] at hget
      obtain rfl : e.2 = v := by injection hget
      have hnotin : ∀ x ∈ rest, x.1 ≠ k := by
        intro x hx
        have hni := (List.nodup_cons.1 hnd).1
        intro hcon
        exact hni (hek ▸ hcon ▸ List.mem_map.2 ⟨x, hx, rfl⟩)
      simp only [List.foldl_cons]
      obtain ⟨f1, f2, f3, f4⟩ := parseFold_frame rest (parseStep st e) k hnotin
      have hself := parseStep_self st e (hek ▸ hd) (hek ▸ hf) (hek ▸ he) (hek ▸ hdep)
      exact parseOutcome_frame _ _ k e.2 f1 f2 f3 f4 (hek ▸ hself)
    · rw [if_neg hek] at hget
      simp only [List.foldl_cons]
      have hfr := parseStep_frame st e k hek
      exact ih (parseStep st e) (List.nodup_cons.1 hnd).2 hget
        (hfr.1.trans hd) (hfr.2.1.trans hf)
        (fun hcon => he (hfr.2.2.2.1 hcon)) (hfr.2.2.1.trans hdep)

/-- `parsePhase` at a present key. -/
theorem parsePhase_at (cells : CellStore) (k v : String)
    (hnd : (cells.map Prod.fst).Nodup) (hget : storeGet? cells k = some v) :
    parseOutcome (parsePhase cells) k v :=
  parseFold_at cells _ k v hnd hget rfl rfl (by simp) rfl

/-- A key absent from the store is absent from every accumulator of the
parse pass. -/
theorem parsePhase_absent (cells : CellStore) (k : String)
    (hget : storeGet? cells k = none) :
    (parsePhase cells).display.get? k = none ∧
    (parsePhase cells).formulas.get? k = none ∧
    (parsePhase cells).dependencies.get? k = none ∧
    k ∉ (parsePhase cells).formulaErrors := by
  have h : ∀ e ∈ cells, e.1 ≠ k := by
    intro e he hcon
    have : (cells.find? (fun x => x.1 == k)).isSome := by
      apply List.find?_isSome.2
      exact ⟨e, he, by simp [hcon]⟩
    unfold storeGet? at hget
    rcases hf : cells.find? (fun x => x.1 == k) with _ | x
    · rw [hf] at this
      cases this
    · rw [hf] at hget
      cases hget
  obtain ⟨f1, f2, f3, f4⟩ := parseFold_frame cells _ k h
  exact ⟨f1, f2, f3, fun hcon => by simpa using f4.1 hcon⟩

/-- Keys of the four parse accumulators stay duplicate-free. -/
theorem parsePhase_nodup (cells : CellStore) :
    (parsePhase cells).display.keys.Nodup ∧ (parsePhase cells).formulas.keys.Nodup ∧
    (parsePhase cells).dependencies.keys.Nodup ∧ (parsePhase cells).formulaErrors.Nodup := by
  unfold parsePhase
  refine foldlRec (fun s => s.display.keys.Nodup ∧ s.formulas.keys.Nodup ∧
    s.dependencies.keys.Nodup ∧ s.formulaErrors.Nodup) parseStep cells ?_
    ⟨SMap.empty, SMap.empty, [], SMap.empty⟩
    ⟨List.nodup_nil, List.nodup_nil, List.nodup_nil, List.nodup_nil⟩
  intro s e _ hs
  unfold parseStep
  by_cases h1 : startsWithEq e.2 = true
  · rw [if_neg (by simp [h1])]
    cases parseFormula (tokenize (strDropFirst e.2)) with
    | none => exact ⟨hs.1, hs.2.1, hs.2.2.1, insertOnce_nodup _ _ hs.2.2.2⟩
    | some ast =>
      exact ⟨hs.1, SMap.keys_nodup_set _ _ _ hs.2.1,
        SMap.keys_nodup_set _ _ _ hs.2.2.1, hs.2.2.2⟩
  · rw [if_pos (by simpa using h1)]
    exact ⟨SMap.keys_nodup_set _ _ _ hs.1, hs.2.1, hs.2.2.1, hs.2.2.2⟩

/-! ## The evaluation, cycle, formatting and error passes, key by key -/

/-- Every branch of the evaluation step writes its key. -/
theorem evalStep_sets (cells : CellStore) (st : ParseState)
    (computed : SMap FormulaValue) (key : String) :
    ∃ w, evalStep cells st computed key = computed.set key w := by
  unfold evalStep
  by_cases h : st.formulaErrors.contains key = true
  · rw [if_pos h]
    exact ⟨_, rfl⟩
  · rw [if_neg h]
    cases st.formulas.get? key with
    | none => exact ⟨_, rfl⟩
    | some ast => exact ⟨_, rfl⟩

/-- A key is computed exactly when it was already computed or it occurs in
the processed order. -/
theorem evalFold_has (cells : CellStore) (st : ParseState) (ordered : List String)
    (computed : SMap FormulaValue) (k : String) :
    ((ordered.foldl (evalStep cells st) computed).has k = true) ↔
      (computed.has k = true ∨ k ∈ ordered) := by
  induction ordered generalizing computed with
  | nil => simp
  | cons o rest ih =>
    simp only [List.foldl_cons, List.mem_cons]
    rw [ih]
    obtain ⟨w, hw⟩ := evalStep_sets cells st computed o
    rw [hw]
    by_cases hk : k = o
    · subst hk
      simp [SMap.has_set_self]
    · rw [SMap.has_set_other _ _ _ _ hk]
      simp [hk]

/-- Evaluation of keys other than `k` leaves `k`'s computed value alone. -/
theorem evalFold_frame (cells : CellStore) (st : ParseState) (ordered : List String)
    (computed : SMap FormulaValue) (k : String) (h : ∀ o ∈ ordered, o ≠ k) :
    (ordered.foldl (evalStep cells st) computed).get? k = computed.get? k := by
  refine foldlRec (fun s => s.get? k = computed.get? k) (evalStep cells st)
    ordered ?_ computed rfl
  intro s o ho hs
  obtain ⟨w, hw⟩ := evalStep_sets cells st s o
  rw [hw, SMap.get?_set_other _ _ _ _ (fun hc => h o ho hc.symm)]
  exact hs

theorem evalPhase_get_none (cells : CellStore) (st : ParseState)
    (ordered : List String) (k : String) (h : k ∉ ordered) :
    (evalPhase cells st ordered).get? k = none := by
  unfold evalPhase
  rw [evalFold_frame cells st ordered SMap.empty k
    (fun o ho hc => h (hc ▸ ho))]
  rfl

/-- A key is in the cycle-pass result exactly when it was computed or is a
formula key. -/
theorem cycleFold_has (l : List (String × FormulaNode)) (computed : SMap FormulaValue)
    (k : String) :
    ((l.foldl cycleStep computed).has k = true) ↔
      (computed.has k = true ∨ k ∈ l.map Prod.fst) := by
  induction l generalizing computed with
  | nil => simp
  | cons e rest ih =>
    simp only [List.foldl_cons, List.map_cons, List.mem_cons]
    rw [ih]
    unfold cycleStep
    by_cases he : computed.has e.1 = true
    · rw [if_pos he]
      by_cases hk : k = e.1
      · subst hk
        simp [he]
      · simp [hk]
    · rw [if_neg he]
      by_cases hk : k = e.1
      · subst hk
        simp [SMap.has_set_self]
      · rw [SMap.has_set_other _ _ _ _ hk]
        simp [hk]

theorem cycleStep_of_has (computed : SMap FormulaValue) (e : String × FormulaNode)
    (h : computed.has e.1 = true) : cycleStep computed e = computed := by
  unfold cycleStep
  rw [if_pos h]

theorem cycleStep_of_not_has (computed : SMap FormulaValue) (e : String × FormulaNode)
    (h : computed.has e.1 = false) :
    cycleStep computed e = computed.set e.1 (.str "#CYCLE") := by
  unfold cycleStep
  rw [if_neg (by simp [h])]

/-- The cycle pass never overwrites a computed value. -/
theorem cycleFold_get_of_has (l : List (String × FormulaNode))
    (computed : SMap FormulaValue) (k : String) (h : computed.has k = true) :
    (l.foldl cycleStep computed).get? k = computed.get? k := by
  induction l generalizing computed with
  | nil => rfl
  | cons e rest ih =>
    simp only [List.foldl_cons]
    by_cases he : computed.has e.1 = true
    · rw [cycleStep_of_has _ _ he]
      exact ih computed h
    · rw [cycleStep_of_not_has _ _ (by simpa using he)]
      have hk : k ≠ e.1 := fun hcon => he (hcon ▸ h)
      rw [ih _ (by rw [SMap.has_set_other _ _ _ _ hk]; exact h)]
      exact SMap.get?_set_other _ _ _ _ hk

theorem cycleFold_frame (l : List (String × FormulaNode)) (computed : SMap FormulaValue)
    (k : String) (h : ∀ e ∈ l, e.1 ≠ k) :
    (l.foldl cycleStep computed).get? k = computed.get? k := by
  refine foldlRec (fun s => s.get? k = computed.get? k) cycleStep l ?_ computed rfl
  intro s e he hs
  by_cases h1 : s.has e.1 = true
  · rw [cycleStep_of_has _ _ h1]
    exact hs
  · rw [cycleStep_of_not_has _ _ (by simpa using h1)]
    rw [SMap.get?_set_other _ _ _ _ (fun hc => h e he hc.symm)]
    exact hs

/-- An uncomputed formula key gets the `'#CYCLE'` marker. -/
theorem cycleFold_marks (l : List (String × FormulaNode)) (computed : SMap FormulaValue)
    (k : String) (hnd : (l.map Prod.fst).Nodup) (hmem : k ∈ l.map Prod.fst)
    (h : computed.has k = false) :
    (l.foldl cycleStep computed).get? k = some (.str "#CYCLE") := by
  induction l generalizing computed with
  | nil => simp at hmem
  | cons e rest ih =>
    simp only [List.map_cons] at hnd hmem
    simp only [List.foldl_cons]
    by_cases hk : e.1 = k
    · rw [cycleStep_of_not_has _ _ (by rw [hk]; exact h)]
      have hrest : ∀ x ∈ rest, x.1 ≠ k := by
        intro x hx hcon
        apply (List.nodup_cons.1 hnd).1
        rw [hk, ← hcon]
        exact List.mem_map.2 ⟨x, hx, rfl⟩
      rw [cycleFold_frame rest _ k hrest, hk]
      exact SMap.get?_set_self _ _ _
    · have hmem' : k ∈ rest.map Prod.fst := by
        rcases List.mem_cons.1 hmem with hc | hc
        · exact absurd hc.symm hk
        · exact hc
      have hnd' : (rest.map Prod.fst).Nodup := (List.nodup_cons.1 hnd).2
      by_cases he : computed.has e.1 = true
      · rw [cycleStep_of_has _ _ he]
        exact ih computed hnd' hmem' h
      · rw [cycleStep_of_not_has _ _ (by simpa using he)]
        refine ih _ hnd' hmem' ?_
        rw [SMap.has_set_other _ _ _ _ (Ne.symm hk)]
        exact h

/-- The formatting pass at keys it does not write. -/
theorem writeFold_frame (l : List (String × FormulaValue)) (d : SMap String)
    (k : String) (h : ∀ e ∈ l, e.1 ≠ k) :
    (l.foldl writeStep d).get? k = d.get? k := by
  refine foldlRec (fun s => s.get? k = d.get? k) writeStep l ?_ d rfl
  intro s e he hs
  unfold writeStep
  rw [SMap.get?_set_other _ _ _ _ (fun hc => h e he hc.symm)]
  exact hs

/-- The formatting pass writes each computed entry through `formatValue`. -/
theorem writeFold_at (l : List (String × FormulaValue)) (d : SMap String)
    (k : String) (w : FormulaValue) (hnd : (l.map Prod.fst).Nodup)
    (hmem : (k, w) ∈ l) :
    (l.foldl writeStep d).get? k = some (formatValue w) := by
  induction l generalizing d with
  | nil => simp at hmem
  | cons e rest ih =>
    simp only [List.map_cons] at hnd
    simp only [List.foldl_cons]
    rcases List.mem_cons.1 hmem with hc | hc
    · obtain rfl : e = (k, w) := hc.symm
      have hrest : ∀ x ∈ rest, x.1 ≠ k := by
        intro x hx hcon
        apply (List.nodup_cons.1 hnd).1
        rw [← hcon]
        exact List.mem_map.2 ⟨x, hx, rfl⟩
      rw [writeFold_frame rest _ k hrest]
      exact SMap.get?_set_self _ _ _
    · exact ih _ (List.nodup_cons.1 hnd).2 hc

theorem errorStep_of_has (d : SMap String) (e : String) (h : d.has e = true) :
    errorStep d e = d := by
  unfold errorStep
  rw [if_pos h]

theorem errorStep_of_not_has (d : SMap String) (e : String) (h : d.has e = false) :
    errorStep d e = d.set e "#ERROR" := by
  unfold errorStep
  rw [if_neg (by simp [h])]

/-- The error pass never touches a key that is already displayed. -/
theorem errorFold_of_has (l : List String) (d : SMap String) (k : String)
    (h : d.has k = true) :
    (l.foldl errorStep d).get? k = d.get? k := by
  induction l generalizing d with
  | nil => rfl
  | cons e rest ih =>
    simp only [List.foldl_cons]
    by_cases he : d.has e = true
    · rw [errorStep_of_has _ _ he]
      exact ih d h
    · rw [errorStep_of_not_has _ _ (by simpa using he)]
      have hk : k ≠ e := fun hcon => he (hcon ▸ h)
      rw [ih _ (by rw [SMap.has_set_other _ _ _ _ hk]; exact h)]
      exact SMap.get?_set_other _ _ _ _ hk

theorem errorFold_frame (l : List String) (d : SMap String) (k : String)
    (h : k ∉ l) :
    (l.foldl errorStep d).get? k = d.get? k := by
  refine foldlRec (fun s => s.get? k = d.get? k) errorStep l ?_ d rfl
  intro s e he hs
  by_cases h1 : s.has e = true
  · rw [errorStep_of_has _ _ h1]
    exact hs
  · rw [errorStep_of_not_has _ _ (by simpa using h1)]
    rw [SMap.get?_set_other _ _ _ _ (fun hc => h (by rw [hc]; exact he))]
    exact hs

/-- A parse-error key with no display entry gets `'#ERROR'`. -/
theorem errorFold_marks (l : List String) (d : SMap String) (k : String)
    (hnd : l.Nodup) (hmem : k ∈ l) (h : d.has k = false) :
    (l.foldl errorStep d).get? k = some "#ERROR" := by
  induction l generalizing d with
  | nil => simp at hmem
  | cons e rest ih =>
    simp only [List.foldl_cons]
    by_cases hk : e = k
    · subst hk
      rw [errorStep_of_not_has _ _ h]
      rw [errorFold_frame rest _ e (List.nodup_cons.1 hnd).1]
      exact SMap.get?_set_self _ _ _
    · have hmem' : k ∈ rest := by
        rcases List.mem_cons.1 hmem with hc | hc
        · exact absurd hc.symm hk
        · exact hc
      by_cases he : d.has e = true
      · rw [errorStep_of_has _ _ he]
        exact ih _ (List.nodup_cons.1 hnd).2 hmem' h
      · rw [errorStep_of_not_has _ _ (by simpa using he)]
        refine ih _ (List.nodup_cons.1 hnd).2 hmem' ?_
        rw [SMap.has_set_other _ _ _ _ (Ne.symm hk)]
        exact h

/-- Keys stay duplicate-free through the evaluation, cycle, formatting and
error passes. -/
theorem foldSets_nodup {β : Type} {α : Type} (f : SMap β → α → SMap β) (l : List α)
    (hf : ∀ s a, a ∈ l → (f s a = s ∨ ∃ k v, f s a = s.set k v))
    (d : SMap β) (hd : d.keys.Nodup) : (l.foldl f d).keys.Nodup := by
  refine foldlRec (fun s => s.keys.Nodup) f l ?_ d hd
  intro s a ha hs
  rcases hf s a ha with h | ⟨k, v, h⟩
  · rw [h]
    exact hs
  · rw [h]
    exact SMap.keys_nodup_set _ _ _ hs

/-! ## Keys of the dependency graph and of the schedule -/

theorem SMap.has_of_get?_eq_some {β : Type} (m : SMap β) (k : String) (v : β)
    (h : m.get? k = some v) : m.has k = true := by
  cases hb : m.has k with
  | true => rfl
  | false =>
    rw [SMap.get?_eq_none_of_has_eq_false m k hb] at h
    cases h

theorem SMap.has_eq_of_keys_eq {β γ : Type} (m1 : SMap β) (m2 : SMap γ)
    (h : m1.keys = m2.keys) (k : String) : m1.has k = m2.has k := by
  cases hb : m2.has k with
  | true => exact (SMap.mem_keys_iff_has m1 k).1 (h ▸ (SMap.mem_keys_iff_has m2 k).2 hb)
  | false =>
    cases hb1 : m1.has k with
    | false => rfl
    | true =>
      exfalso
      have hk2 : k ∈ m2.keys := h ▸ (SMap.mem_keys_iff_has m1 k).2 hb1
      rw [SMap.mem_keys_iff_has, hb] at hk2
      cases hk2

/-- `formulas` and `dependencies` always hold exactly the same keys: the
parse pass records them together. -/
theorem parsePhase_deps_keys (cells : CellStore) :
    (parsePhase cells).formulas.keys = (parsePhase cells).dependencies.keys := by
  unfold parsePhase
  refine foldlRec (fun s => s.formulas.keys = s.dependencies.keys) parseStep cells ?_
    ⟨SMap.empty, SMap.empty, [], SMap.empty⟩ rfl
  intro s e _ hs
  unfold parseStep
  by_cases h1 : startsWithEq e.2 = true
  · rw [if_neg (by simp [h1])]
    cases parseFormula (tokenize (strDropFirst e.2)) with
    | none => exact hs
    | some ast =>
      show (s.formulas.set e.1 ast).keys = (s.dependencies.set e.1 _).keys
      rw [SMap.keys_set, SMap.keys_set, hs,
         SMap.has_eq_of_keys_eq s.formulas s.dependencies hs e.1]
  · rw [if_pos (by simpa using h1)]
    exact hs

/-- Folding a constant-value `set` over fresh, duplicate-free keys appends
exactly those keys. -/
theorem foldl_setConst_keys {β : Type} (l : List String) (c : β) (m : SMap β)
    (hfresh : ∀ k ∈ l, m.has k = false) (hnd : l.Nodup) :
    (l.foldl (fun m k => m.set k c) m).keys = m.keys ++ l := by
  induction l generalizing m with
  | nil => simp
  | cons k rest ih =>
    simp only [List.foldl_cons]
    have hk : m.has k = false := hfresh k (List.mem_cons_self _ _)
    have hkeys : (m.set k c).keys = m.keys ++ [k] := by
      rw [SMap.keys_set, if_neg (by simp [hk])]
    rw [ih (m.set k c) ?_ (List.nodup_cons.1 hnd).2, hkeys]
    · simp
    · intro k' hk'
      rw [SMap.has_set_other _ _ _ _
        (fun hc => (List.nodup_cons.1 hnd).1 (by rw [← hc]; exact hk'))]
      exact hfresh k' (List.mem_cons_of_mem _ hk')

/-- Every value in a constant-value `set` fold is that constant. -/
theorem foldl_setConst_get? {β : Type} (l : List String) (c : β) (m : SMap β)
    (hm : ∀ d v, m.get? d = some v → v = c) :
    ∀ d v, (l.foldl (fun m k => m.set k c) m).get? d = some v → v = c := by
  refine foldlRec (fun s => ∀ d v, s.get? d = some v → v = c) _ l ?_ m hm
  intro s k _ hs d v hv
  by_cases hdk : d = k
  · subst hdk
    rw [SMap.get?_set_self] at hv
    injection hv with hv
    exact hv.symm
  · rw [SMap.get?_set_other _ _ _ _ hdk] at hv
    exact hs d v hv

theorem graphInit_keys (formulas : SMap FormulaNode) (hnd : formulas.keys.Nodup) :
    (graphInit formulas).adjacency.keys = formulas.keys ∧
    (graphInit formulas).indegree.keys = formulas.keys := by
  unfold graphInit
  constructor
  · rw [foldl_setConst_keys formulas.keys [] SMap.empty (fun k _ => rfl) hnd]
    rfl
  · rw [foldl_setConst_keys formulas.keys 0 SMap.empty (fun k _ => rfl) hnd]
    rfl

theorem graphInit_adjacency_values (formulas : SMap FormulaNode) :
    ∀ d l, (graphInit formulas).adjacency.get? d = some l → l = [] := by
  intro d l
  exact fun h => foldl_setConst_get? formulas.keys [] SMap.empty
    (fun d v hv => by cases hv) d l h

/-- The edge pass leaves keys of both graph maps untouched (it only rewrites
existing entries). -/
theorem addEdges_keys (formulas : SMap FormulaNode) (deps : SMap (List String))
    (g : GraphState) (hind : ∀ cd ∈ deps.entries, g.indegree.has cd.1 = true) :
    (addEdges formulas deps g).adjacency.keys = g.adjacency.keys ∧
    (addEdges formulas deps g).indegree.keys = g.indegree.keys := by
  unfold addEdges
  refine foldlRec (fun g' => g'.adjacency.keys = g.adjacency.keys ∧
    g'.indegree.keys = g.indegree.keys) _ deps.entries ?_ g ⟨rfl, rfl⟩
  intro g' cd hcd hg'
  refine foldlRec (fun g'' => g''.adjacency.keys = g.adjacency.keys ∧
    g''.indegree.keys = g.indegree.keys) _ cd.2 ?_ g' hg'
  intro g'' dep _ hg''
  by_cases hf : formulas.has dep = true
  · rw [if_pos hf]
    constructor
    · cases ha : g''.adjacency.get? dep with
      | none =>
        simp only [ha]
        exact hg''.1
      | some l =>
        simp only [ha]
        rw [SMap.keys_set, if_pos (SMap.has_of_get?_eq_some _ _ _ ha)]
        exact hg''.1
    · cases ha : g''.adjacency.get? dep with
      | none =>
        simp only [ha]
        rw [SMap.keys_set, if_pos ?_]
        · exact hg''.2
        · rw [SMap.has_eq_of_keys_eq _ g.indegree hg''.2]
          exact hind cd hcd
      | some l =>
        simp only [ha]
        rw [SMap.keys_set, if_pos ?_]
        · exact hg''.2
        · rw [SMap.has_eq_of_keys_eq _ g.indegree hg''.2]
          exact hind cd hcd
  · rw [if_neg hf]
    exact hg''

/-- Every name in any adjacency list satisfies any property the initial lists
and the dependency keys satisfy. -/
theorem addEdges_adjacency_values (formulas : SMap FormulaNode)
    (deps : SMap (List String)) (g : GraphState) (Q : String → Prop)
    (h0 : ∀ d l, g.adjacency.get? d = some l → ∀ c ∈ l, Q c)
    (hdeps : ∀ cd ∈ deps.entries, Q cd.1) :
    ∀ d l, (addEdges formulas deps g).adjacency.get? d = some l → ∀ c ∈ l, Q c := by
  unfold addEdges
  refine foldlRec (fun g' => ∀ d l, g'.adjacency.get? d = some l → ∀ c ∈ l, Q c)
    _ deps.entries ?_ g h0
  intro g' cd hcd hg'
  refine foldlRec (fun g'' => ∀ d l, g''.adjacency.get? d = some l → ∀ c ∈ l, Q c)
    _ cd.2 ?_ g' hg'
  intro g'' dep _ hg'' d l hl
  by_cases hf : formulas.has dep = true
  · rw [if_pos hf] at hl
    cases ha : g''.adjacency.get? dep with
    | none =>
      rw [ha] at hl
      exact hg'' d l hl
    | some l0 =>
      rw [ha] at hl
      simp only at hl
      by_cases hd : d = dep
      · subst hd
        rw [SMap.get?_set_self] at hl
        injection hl with hl
        subst hl
        intro c hc
        rcases (insertOnce_mem l0 cd.1 c).1 hc with hcl | rfl
        · exact hg'' d l0 ha c hcl
        · exact hdeps cd hcd
      · rw [SMap.get?_set_other _ _ _ _ hd] at hl
        exact hg'' d l hl
  · rw [if_neg hf] at hl
    exact hg'' d l hl

theorem seedQueue_subset (indegree : SMap Int) :
    ∀ x ∈ seedQueue indegree, x ∈ indegree.keys := by
  intro x hx
  unfold seedQueue at hx
  obtain ⟨e, he, rfl⟩ := List.mem_map.1 hx
  exact List.mem_map.2 ⟨e, (List.mem_filter.1 he).1, rfl⟩

theorem kahnVisit_ordered (adjacency : SMap (List String)) (cur : String)
    (st : KahnState) : (kahnVisit adjacency cur st).ordered = st.ordered := by
  unfold kahnVisit
  refine foldlRec (fun s => s.ordered = st.ordered) _ _ ?_ st rfl
  intro s x _ hs
  exact hs

theorem kahnVisit_queue_subset (adjacency : SMap (List String)) (cur : String)
    (st : KahnState) :
    ∀ x ∈ (kahnVisit adjacency cur st).queue,
      x ∈ st.queue ∨ x ∈ (adjacency.get? cur).getD [] := by
  unfold kahnVisit
  refine foldlRec (fun s => ∀ x ∈ s.queue, x ∈ st.queue ∨ x ∈ (adjacency.get? cur).getD [])
    _ _ ?_ st (fun x hx => Or.inl hx)
  intro s nxt hnxt hs x hx
  simp only at hx
  by_cases hc : (s.indegree.getD nxt 0 - 1) = 0
  · rw [if_pos hc] at hx
    rcases List.mem_append.1 hx with h | h
    · exact hs x h
    · rw [List.mem_singleton] at h
      exact Or.inr (h ▸ hnxt)
  · rw [if_neg hc] at hx
    exact hs x hx

/-- Everything the Kahn loop ever orders satisfies any property that holds of
the starting queue, the starting order, and all adjacency-list entries. -/
theorem kahnLoop_ordered_subset (adjacency : SMap (List String)) (P : String → Prop)
    (hA : ∀ d l, adjacency.get? d = some l → ∀ c ∈ l, P c) :
    ∀ fuel st, (∀ x ∈ st.queue, P x) → (∀ x ∈ st.ordered, P x) →
      ∀ x ∈ (kahnLoop adjacency fuel st).ordered, P x := by
  intro fuel
  induction fuel with
  | zero => exact fun st _ ho => ho
  | succ fuel ih =>
    intro st hq ho x hx
    obtain ⟨indeg, queue, ord⟩ := st
    rcases queue with _ | ⟨current, rest⟩
    · exact ho x (by simpa [kahnLoop] using hx)
    · simp only [kahnLoop] at hx
      by_cases hcur : current = ""
      · rw [if_pos hcur] at hx
        exact ho x hx
      · rw [if_neg hcur] at hx
        refine ih _ ?_ ?_ x hx
        · intro y hy
          rcases kahnVisit_queue_subset adjacency current _ y hy with h | h
          · exact hq y (List.mem_cons_of_mem _ h)
          · cases hL : adjacency.get? current with
            | none =>
              rw [hL] at h
              cases h
            | some l =>
              rw [hL] at h
              exact hA current l hL y h
        · intro y hy
          rw [kahnVisit_ordered] at hy
          rcases List.mem_append.1 hy with h | h
          · exact ho y h
          · rw [List.mem_singleton] at h
            exact h ▸ hq current (List.mem_cons_self _ _)

/-- Every scheduled key is a formula key. -/
theorem ordered_subset_formulas (cells : CellStore) :
    ∀ x ∈ orderedOf cells, x ∈ (parsePhase cells).formulas.keys := by
  unfold orderedOf kahnOf graphOf
  set st := parsePhase cells with hst
  have hnd := (parsePhase_nodup cells).2.1
  have hdk := parsePhase_deps_keys cells
  have hgi := graphInit_keys st.formulas hnd
  have hind : ∀ cd ∈ st.dependencies.entries, (graphInit st.formulas).indegree.has cd.1 = true := by
    intro cd hcd
    rw [SMap.has_eq_of_keys_eq _ st.formulas (by rw [hgi.2])]
    have hmemdep : cd.1 ∈ st.dependencies.keys := List.mem_map.2 ⟨cd, hcd, rfl⟩
    have hmemf : cd.1 ∈ st.formulas.keys := by
      rw [hdk]
      exact hmemdep
    exact (SMap.mem_keys_iff_has _ _).1 hmemf
  have hAvals : ∀ d l, (addEdges st.formulas st.dependencies (graphInit st.formulas)).adjacency.get? d = some l →
      ∀ c ∈ l, c ∈ st.formulas.keys := by
    refine addEdges_adjacency_values st.formulas st.dependencies _ _ ?_ ?_
    · intro d l hl c hc
      rw [graphInit_adjacency_values st.formulas d l hl] at hc
      cases hc
    · intro cd hcd
      have : cd.1 ∈ st.dependencies.keys := List.mem_map.2 ⟨cd, hcd, rfl⟩
      rwa [← hdk] at this
  have hek := addEdges_keys st.formulas st.dependencies (graphInit st.formulas) hind
  unfold runKahn
  intro x hx
  refine kahnLoop_ordered_subset _ (fun y => y ∈ st.formulas.keys) hAvals _ _ ?_ (fun y hy => absurd hy (List.not_mem_nil y)) x hx
  intro y hy
  have := seedQueue_subset _ y hy
  rw [hek.2, hgi.2] at this
  exact this

/-! ## Range expansion (claim C6) -/

theorem mem_intRangeIncl (lo hi k : Int) : k ∈ intRangeIncl lo hi ↔ lo ≤ k ∧ k ≤ hi := by
  constructor
  · intro hk
    obtain ⟨i, hir, hik⟩ := List.mem_map.1 hk
    have hlt : i < (hi + 1 - lo).toNat := List.mem_range.1 hir
    subst hik
    omega
  · rintro ⟨h1, h2⟩
    apply List.mem_map.2
    exact ⟨(k - lo).toNat, List.mem_range.2 (by omega), by omega⟩

/-- C6: for two resolving corner references, range expansion yields exactly
the keys of the inclusive min/max rectangle, enumerated row-major (rows
outer, columns inner, both increasing); the expansion is identical with the
corners swapped, and consequently `SUM` over the two spellings of a range
evaluates identically under every value lookup (hence on every Cell
Store). -/
theorem claim_C6 (s e : String) (ps pe : CellCoords)
    (hs : parseCellRef s = some ps) (he : parseCellRef e = some pe) :
    (∀ k, k ∈ expandRange s e ↔
      ∃ r c : Int, min ps.row pe.row ≤ r ∧ r ≤ max ps.row pe.row ∧
        min ps.col pe.col ≤ c ∧ c ≤ max ps.col pe.col ∧ k = getCellKey r c) ∧
    expandRange s e =
      ((intRangeIncl (min ps.row pe.row) (max ps.row pe.row)).map (fun row =>
        (intRangeIncl (min ps.col pe.col) (max ps.col pe.col)).map (fun col =>
          getCellKey row col))).flatten ∧
    expandRange s e = expandRange e s ∧
    (∀ g, evaluateNode (.func "SUM" [.range s e]) g =
          evaluateNode (.func "SUM" [.range e s]) g) := by
  have hdef : expandRange s e =
      ((intRangeIncl (min ps.row pe.row) (max ps.row pe.row)).map (fun row =>
        (intRangeIncl (min ps.col pe.col) (max ps.col pe.col)).map (fun col =>
          getCellKey row col))).flatten := by
    unfold expandRange
    rw [hs, he]
  have hswap : expandRange s e = expandRange e s := by
    rw [hdef]
    unfold expandRange
    rw [hs, he]
    rw [min_comm ps.row pe.row, max_comm ps.row pe.row,
       min_comm ps.col pe.col, max_comm ps.col pe.col]
  refine ⟨?_, hdef, hswap, ?_⟩
  · intro k
    rw [hdef]
    simp only [List.mem_flatten, List.mem_map]
    constructor
    · rintro ⟨l, ⟨r, hr, rfl⟩, hk⟩
      obtain ⟨c, hc, rfl⟩ := List.mem_map.1 hk
      rw [mem_intRangeIncl] at hr hc
      exact ⟨r, c, hr.1, hr.2, hc.1, hc.2, rfl⟩
    · rintro ⟨r, c, h1, h2, h3, h4, rfl⟩
      refine ⟨_, ⟨r, (mem_intRangeIncl _ _ _).2 ⟨h1, h2⟩, rfl⟩, ?_⟩
      exact List.mem_map.2 ⟨c, (mem_intRangeIncl _ _ _).2 ⟨h3, h4⟩, rfl⟩
  · intro g
    simp only [evaluateNode, evaluateArgs, hswap]

/-- Witness for C6 at the claim's own example corners `A1` and `C3`. -/
theorem claim_C6_witness :
    expandRange "A1" "C3" = expandRange "C3" "A1" :=
  (claim_C6 "A1" "C3" ⟨0, 0⟩ ⟨2, 2⟩ (by decide) (by decide)).2.2.1

/-- C5: binary division returns the error text `#DIV/0!` exactly when the
coerced right operand is 0 and the exact quotient otherwise; the error value
is classified non-numeric and coerces to 0 in arithmetic; and in the claim's
scenario the division cell shows the error while the sibling sum is
unaffected. -/
theorem claim_C5 :
    (∀ (l r : FormulaNode) (g : String → FormulaValue),
      evaluateNode (.binary .div l r) g =
        (if toNumber (firstOrZero (evaluateNode r g)) = 0
         then .val (.str "#DIV/0!")
         else .val (.num (toNumber (firstOrZero (evaluateNode l g)) /
                          toNumber (firstOrZero (evaluateNode r g)))))) ∧
    isNumericValue (.str "#DIV/0!") = false ∧
    toNumber (.str "#DIV/0!") = 0 ∧
    (∀ (x : FormulaNode) (g : String → FormulaValue),
      evaluateNode x g = .val (.str "#DIV/0!") →
      ∀ y, evaluateNode (.binary .add x y) g =
        .val (.num (0 + toNumber (firstOrZero (evaluateNode y g))))) ∧
    (calculateDisplayCells
      [("0:0", "10"), ("1:0", "0"), ("2:0", "=A1/A2"), ("3:0", "=A1+A2")]).get? "2:0" =
      some "#DIV/0!" ∧
    (calculateDisplayCells
      [("0:0", "10"), ("1:0", "0"), ("2:0", "=A1/A2"), ("3:0", "=A1+A2")]).get? "3:0" =
      some "10" := by
  refine ⟨fun l r g => rfl, by decide, by decide, ?_, by with_unfolding_all decide,
    by with_unfolding_all decide⟩
  intro x g hx y
  have h0 : toNumber (firstOrZero (EvalResult.val (.str "#DIV/0!"))) = 0 := by decide
  simp only [evaluateNode, hx, h0]

/-- Witness for C5 discharging the propositional premise of its fourth
conjunct at a concrete division node. -/
theorem claim_C5_witness :
    evaluateNode (.binary .add (.binary .div (.number 1) (.number 0)) (.number 7))
      (fun _ => .null) = .val (.num (0 + 7)) :=
  claim_C5.2.2.2.1 (.binary .div (.number 1) (.number 0)) (fun _ => .null)
    (by decide) (.number 7)

/-! ## Numeric coercion (claim C7) -/

/-- C7 counterexample: `"+5"` matches the claim's optional-`'+'` pattern and
would coerce to its parsed value 5, but the source regex has no `'+'`
alternative: the engine classifies `"+5"` as non-numeric and coerces it to
0. -/
theorem claim_C7_counterexample :
    specSignedDecimalTest "+5" = true ∧
    isNumericValue (.str "+5") = false ∧
    toNumber (.str "+5") = 0 ∧
    (0 : ℚ) ≠ 5 := by
  refine ⟨by decide, by decide, by decide, by norm_num⟩

/-- C7 as amended: a value is numeric iff it is a number (every model number
is finite) or a string whose trim matches the decimal pattern with an
optional `'-'` only; matching strings coerce to their parsed value,
non-matching strings and `null` coerce to 0, numbers pass through `toNumber`
unchanged; and the very same `toNumber`/`isNumericValue` pair is what unary
operators, binary arithmetic, and function-argument filtering use. -/
theorem claim_C7 :
    (∀ v : FormulaValue, isNumericValue v = true ↔
      ((∃ q, v = .num q) ∨ (∃ s, v = .str s ∧ numberReTest (trimString s) = true))) ∧
    (∀ s, numberReTest (trimString s) = true →
      toNumber (.str s) = parseFloatSigned (trimString s)) ∧
    (∀ s, numberReTest (trimString s) = false → toNumber (.str s) = 0) ∧
    toNumber .null = 0 ∧
    (∀ q, toNumber (.num q) = q) ∧
    (∀ x g, evaluateNode (.unary .minus x) g =
      .val (.num (-(toNumber (firstOrZero (evaluateNode x g)))))) ∧
    (∀ x g, evaluateNode (.unary .plus x) g =
      .val (.num (toNumber (firstOrZero (evaluateNode x g))))) ∧
    (∀ l r g, evaluateNode (.binary .add l r) g =
      .val (.num (toNumber (firstOrZero (evaluateNode l g)) +
                  toNumber (firstOrZero (evaluateNode r g))))) ∧
    (∀ args g, evaluateNode (.func "SUM" args) g =
      .val (.num ((((evaluateArgs args g).filter (fun v => isNumericValue v)).map
        toNumber).foldl (fun t v => t + v) 0))) := by
  refine ⟨?_, ?_, ?_, rfl, fun q => rfl, fun x g => rfl, fun x g => rfl,
    fun l r g => rfl, fun args g => by with_unfolding_all rfl⟩
  · intro v
    cases v with
    | num q => simp [isNumericValue]
    | str s => simp [isNumericValue]
    | null => simp [isNumericValue]
  · intro s h
    simp [toNumber, h]
  · intro s h
    simp [toNumber, h]

/-- Witness for C7 discharging its matching-string premise at `"5"`. -/
theorem claim_C7_witness :
    toNumber (.str "5") = parseFloatSigned (trimString "5") :=
  claim_C7.2.1 "5" (by decide)

/-- C9: the engine is a pure function of the Cell Store — two invocations on
the same input are the same computation and agree entry for entry.  (The
source performs no I/O and reads no ambient state, which the embedding
reflects by being a plain function.) -/
theorem claim_C9 (cells : CellStore) :
    calculateDisplayCells cells = calculateDisplayCells cells ∧
    (∀ k, (calculateDisplayCells cells).get? k = (calculateDisplayCells cells).get? k) :=
  ⟨rfl, fun _ => rfl⟩

/-- C10: a reference whose digit run parses to 0 is rejected by
`parseCellRef` (the 1-indexed row becomes −1 and fails the sign check even
though the letter run is present and the parse is finite), a cell node over
it evaluates to absence, it contributes no dependency key, and a formula
consisting only of such a reference displays the empty string. -/
theorem claim_C10 (letters digits : List Char)
    (hl1 : letters ≠ []) (hl2 : letters.all isAlphaChar = true)
    (hd1 : digits ≠ []) (hd2 : digits.all isDigitChar = true)
    (hd0 : digitsToNat digits = 0) :
    parseCellRef (String.mk (letters ++ digits)) = none ∧
    (∀ g, evaluateNode (.cell (String.mk (letters ++ digits))) g = .val .null) ∧
    (∀ deps, collectDependencies (.cell (String.mk (letters ++ digits))) deps = deps) ∧
    (calculateDisplayCells [("0:1", "=A0")]).get? "0:1" = some "" := by
  obtain ⟨d, drest, hdig⟩ : ∃ d drest, digits = d :: drest := by
    cases digits with
    | nil => cases hd1 rfl
    | cons d drest => exact ⟨d, drest, rfl⟩
  have hdnotalpha : isAlphaChar d = false := by
    have hd : isDigitChar d = true := by
      have := List.all_eq_true.1 hd2 d (by simp [hdig])
      simpa using this
    simp only [isDigitChar, Bool.and_eq_true, decide_eq_true_eq] at hd
    obtain ⟨h1, h2⟩ := hd
    have ha : ¬ ('a' ≤ d) := fun hcon => absurd (le_trans hcon h2) (by decide)
    have hA : ¬ ('A' ≤ d) := fun hcon => absurd (le_trans hcon h2) (by decide)
    simp [isAlphaChar, ha, hA]
  have hsplit : ∀ ls : List Char, ls.all isAlphaChar = true →
      (ls ++ digits).takeWhile isAlphaChar = ls ∧
      (ls ++ digits).dropWhile isAlphaChar = digits := by
    intro ls
    induction ls with
    | nil =>
      intro _
      rw [hdig]
      exact ⟨by simp [List.takeWhile_cons, hdnotalpha],
             by simp [List.dropWhile_cons, hdnotalpha]⟩
    | cons c rest ih =>
      intro hls
      have hc : isAlphaChar c = true := by
        have := List.all_eq_true.1 hls c (List.mem_cons_self _ _)
        simpa using this
      have hrest := ih (by
        rw [List.all_eq_true] at hls ⊢
        intro x hx
        exact hls x (List.mem_cons_of_mem _ hx))
      simp only [List.cons_append, List.takeWhile_cons, List.dropWhile_cons, hc, if_true]
      exact ⟨by rw [hrest.1], by rw [hrest.2]⟩
  have hnone : parseCellRef (String.mk (letters ++ digits)) = none := by
    unfold parseCellRef
    simp only [String.data]
    rw [(hsplit letters hl2).1, (hsplit letters hl2).2]
    rw [if_neg (by simp [hl1, hd1, hd2])]
    rw [if_pos]
    simp only [hd0]
    norm_num
  refine ⟨hnone, ?_, ?_, by with_unfolding_all decide⟩
  · intro g
    simp [evaluateNode, hnone]
  · intro deps
    simp [collectDependencies, hnone]

/-- Witness for C10 at the claim's own example reference `A0`. -/
theorem claim_C10_witness :
    parseCellRef (String.mk (['A'] ++ ['0'])) = none :=
  (claim_C10 ['A'] ['0'] (by decide) (by decide) (by decide) (by decide) (by decide)).1

/-! ## The display map, key by key -/

theorem calculateDisplayCells_eq (cells : CellStore) :
    calculateDisplayCells cells =
      errorPhase (writeBack (parsePhase cells).display (computedOf cells))
        (parsePhase cells).formulaErrors := rfl

theorem SMap.mem_entries_of_get?_eq_some {β : Type} (m : SMap β) (k : String) (v : β)
    (h : m.get? k = some v) : (k, v) ∈ m.entries := by
  unfold SMap.get? at h
  cases hf : m.entries.find? (fun e => e.1 == k) with
  | none =>
    rw [hf] at h
    cases h
  | some e =>
    rw [hf] at h
    injection h with h2
    have hmem := List.mem_of_find?_eq_some hf
    have hpred := List.find?_some hf
    simp only [beq_iff_eq] at hpred
    have : e = (k, v) := by
      obtain ⟨e1, e2⟩ := e
      simp only at hpred h2
      rw [hpred, h2]
    rw [← this]
    exact hmem

/-- A key is in the computed store (after the cycle pass) exactly when it is
a formula key. -/
theorem computedOf_has (cells : CellStore) (k : String) :
    ((computedOf cells).has k = true) ↔ k ∈ (parsePhase cells).formulas.keys := by
  unfold computedOf cyclePhase
  rw [cycleFold_has]
  constructor
  · rintro (h | h)
    · unfold evalPhase at h
      rcases (evalFold_has _ _ _ _ _).1 h with h' | h'
      · simp [SMap.has, SMap.empty] at h'
      · exact ordered_subset_formulas cells k h'
    · exact h
  · exact Or.inr

theorem computedOf_keys_nodup (cells : CellStore) : (computedOf cells).keys.Nodup := by
  unfold computedOf cyclePhase
  refine foldSets_nodup _ _ ?_ _ ?_
  · intro s a _
    by_cases h : s.has a.1 = true
    · exact Or.inl (cycleStep_of_has s a h)
    · exact Or.inr ⟨a.1, _, cycleStep_of_not_has s a (by simpa using h)⟩
  · unfold evalPhase
    refine foldSets_nodup _ _ ?_ _ List.nodup_nil
    intro s a _
    obtain ⟨w, hw⟩ := evalStep_sets cells (parsePhase cells) s a
    exact Or.inr ⟨a, w, hw⟩

theorem calculateDisplayCells_keys_nodup (cells : CellStore) :
    (calculateDisplayCells cells).keys.Nodup := by
  rw [calculateDisplayCells_eq]
  unfold errorPhase
  refine foldSets_nodup _ _ ?_ _ ?_
  · intro s a _
    by_cases h : s.has a = true
    · exact Or.inl (errorStep_of_has s a h)
    · exact Or.inr ⟨a, _, errorStep_of_not_has s a (by simpa using h)⟩
  · unfold writeBack
    refine foldSets_nodup _ _ ?_ _ (parsePhase_nodup cells).1
    intro s a _
    exact Or.inr ⟨a.1, _, rfl⟩

/-- A literal cell's raw text reaches the output untouched. -/
theorem display_literal (cells : CellStore) (k v : String)
    (hnd : (cells.map Prod.fst).Nodup) (hget : storeGet? cells k = some v)
    (hlit : startsWithEq v = false) :
    (calculateDisplayCells cells).get? k = some v := by
  have po := parsePhase_at cells k v hnd hget
  unfold parseOutcome at po
  rw [hlit] at po
  obtain ⟨pd, pf, pe, pdep⟩ := po
  have hcomp : (computedOf cells).has k = false := by
    cases hb : (computedOf cells).has k with
    | false => rfl
    | true =>
      exfalso
      have hmem := (computedOf_has cells k).1 hb
      rw [SMap.mem_keys_iff_has] at hmem
      obtain ⟨w, hw⟩ := SMap.isSome_get?_of_has _ _ hmem
      rw [pf] at hw
      cases hw
  rw [calculateDisplayCells_eq]
  unfold errorPhase
  rw [errorFold_frame _ _ _ pe]
  unfold writeBack
  rw [writeFold_frame _ _ _ ((SMap.has_eq_false_iff _ _).1 hcomp)]
  exact pd

/-- A formula cell whose text fails to parse displays `'#ERROR'`. -/
theorem display_parse_error (cells : CellStore) (k v : String)
    (hnd : (cells.map Prod.fst).Nodup) (hget : storeGet? cells k = some v)
    (hfe : startsWithEq v = true)
    (hfail : parseFormula (tokenize (strDropFirst v)) = none) :
    (calculateDisplayCells cells).get? k = some "#ERROR" := by
  have po := parsePhase_at cells k v hnd hget
  unfold parseOutcome at po
  rw [hfe, hfail] at po
  obtain ⟨pd, pf, pe, pdep⟩ := po
  have hcomp : (computedOf cells).has k = false := by
    cases hb : (computedOf cells).has k with
    | false => rfl
    | true =>
      exfalso
      have hmem := (computedOf_has cells k).1 hb
      rw [SMap.mem_keys_iff_has] at hmem
      obtain ⟨w, hw⟩ := SMap.isSome_get?_of_has _ _ hmem
      rw [pf] at hw
      cases hw
  have hd2 : (writeBack (parsePhase cells).display (computedOf cells)).get? k = none := by
    unfold writeBack
    rw [writeFold_frame _ _ _ ((SMap.has_eq_false_iff _ _).1 hcomp)]
    exact pd
  rw [calculateDisplayCells_eq]
  unfold errorPhase
  rw [errorFold_marks _ _ _ (parsePhase_nodup cells).2.2.2 pe
    (SMap.has_eq_false_of_get?_eq_none _ _ hd2)]

/-- A formula cell that parses displays the `formatValue` of its computed
value (evaluation result or cycle marker). -/
theorem display_formula_ok (cells : CellStore) (k v : String) (ast : FormulaNode)
    (hnd : (cells.map Prod.fst).Nodup) (hget : storeGet? cells k = some v)
    (hfe : startsWithEq v = true)
    (hok : parseFormula (tokenize (strDropFirst v)) = some ast) :
    ∃ w, (computedOf cells).get? k = some w ∧
      (calculateDisplayCells cells).get? k = some (formatValue w) := by
  have po := parsePhase_at cells k v hnd hget
  unfold parseOutcome at po
  rw [hfe, hok] at po
  obtain ⟨pd, pf, pe, pdep⟩ := po
  have hmemf : k ∈ (parsePhase cells).formulas.keys :=
    (SMap.mem_keys_iff_has _ _).2 (SMap.has_of_get?_eq_some _ _ _ pf)
  have hhas : (computedOf cells).has k = true := (computedOf_has cells k).2 hmemf
  obtain ⟨w, hw⟩ := SMap.isSome_get?_of_has _ _ hhas
  refine ⟨w, hw, ?_⟩
  rw [calculateDisplayCells_eq]
  unfold errorPhase
  rw [errorFold_frame _ _ _ pe]
  unfold writeBack
  exact writeFold_at _ _ k w (computedOf_keys_nodup cells)
    (SMap.mem_entries_of_get?_eq_some _ _ _ hw)

/-- C8: literal cells pass through to the display map character for
character; none of the later passes touch them. -/
theorem claim_C8 (cells : CellStore) (k v : String)
    (hnd : (cells.map Prod.fst).Nodup) (hget : storeGet? cells k = some v)
    (hlit : startsWithEq v = false) :
    (calculateDisplayCells cells).get? k = some v :=
  display_literal cells k v hnd hget hlit

/-- Witness for C8 on a literal cell whose text even looks numeric (the
formatter must not reformat it). -/
theorem claim_C8_witness :
    (calculateDisplayCells [("0:0", "007"), ("0:1", "=A1+1")]).get? "0:0" = some "007" :=
  claim_C8 [("0:0", "007"), ("0:1", "=A1+1")] "0:0" "007"
    (by decide) (by decide) (by decide)

/-- C1: every input key appears exactly once in the output; a literal maps
to its own text, a formula to `'#ERROR'` on a parse failure and otherwise to
the formatted computed value (which includes the `'#DIV/0!'` and `'#CYCLE'`
tokens, both of which are `formatValue` of text values). -/
theorem claim_C1 (cells : CellStore) (k v : String)
    (hnd : (cells.map Prod.fst).Nodup) (hget : storeGet? cells k = some v) :
    (∃ s, (calculateDisplayCells cells).get? k = some s) ∧
    (calculateDisplayCells cells).keys.Nodup ∧
    (startsWithEq v = false → (calculateDisplayCells cells).get? k = some v) ∧
    (startsWithEq v = true →
      ((calculateDisplayCells cells).get? k = some "#ERROR" ∨
       ∃ fv : FormulaValue, (calculateDisplayCells cells).get? k = some (formatValue fv))) := by
  refine ⟨?_, calculateDisplayCells_keys_nodup cells, ?_, ?_⟩
  · cases hl : startsWithEq v with
    | false => exact ⟨v, display_literal cells k v hnd hget hl⟩
    | true =>
      cases hp : parseFormula (tokenize (strDropFirst v)) with
      | none => exact ⟨"#ERROR", display_parse_error cells k v hnd hget hl hp⟩
      | some ast =>
        obtain ⟨w, _, hw⟩ := display_formula_ok cells k v ast hnd hget hl hp
        exact ⟨formatValue w, hw⟩
  · intro hl
    exact display_literal cells k v hnd hget hl
  · intro hl
    cases hp : parseFormula (tokenize (strDropFirst v)) with
    | none => exact Or.inl (display_parse_error cells k v hnd hget hl hp)
    | some ast =>
      obtain ⟨w, _, hw⟩ := display_formula_ok cells k v ast hnd hget hl hp
      exact Or.inr ⟨w, hw⟩

/-- Witness for C1 on a store with a literal, a good formula and a bad
formula. -/
theorem claim_C1_witness :
    ∃ s, (calculateDisplayCells [("0:0", "2"), ("0:1", "=A1*3"), ("0:2", "=)")]).get?
      "0:1" = some s :=
  (claim_C1 [("0:0", "2"), ("0:1", "=A1*3"), ("0:2", "=)")] "0:1" "=A1*3"
    (by decide) (by decide)).1

/-! ## The three-tier value lookup (claim C2) -/

/-- C2 counterexample: with `A1 = "=1+"` (parse failure, never computed) and
`B1 = "=A1"`, the lookup's third tier hands `B1` the raw `'='`-prefixed text
of `A1` — not absence — and `B1` displays `"=1+"` rather than the empty
string that absence would format to. -/
theorem claim_C2_counterexample :
    getCellValue SMap.empty (parsePhase [("0:0", "=1+"), ("1:0", "=A1")]).display
      [("0:0", "=1+"), ("1:0", "=A1")] "0:0" = .str "=1+" ∧
    FormulaValue.str "=1+" ≠ .null ∧
    (calculateDisplayCells [("0:0", "=1+"), ("1:0", "=A1")]).get? "1:0" = some "=1+" ∧
    "=1+" ≠ "" := by
  exact ⟨by with_unfolding_all decide, by decide, by with_unfolding_all decide, by decide⟩

/-- C2 as amended: the lookup has three data tiers and only then absence —
computed formula results, then the `display` map (exactly the literal cells
at evaluation time), then the raw stored text (which for a present but
never-computed formula cell is its `'='`-prefixed source), and `null` only
for keys absent from the store altogether. -/
theorem claim_C2 (computed : SMap FormulaValue) (display : SMap String)
    (cells : CellStore) (k : String) :
    (computed.has k = true →
      getCellValue computed display cells k = (computed.get? k).getD .null) ∧
    (computed.has k = false → display.has k = true →
      ∃ s, display.get? k = some s ∧ getCellValue computed display cells k = .str s) ∧
    (computed.has k = false → display.has k = false →
      getCellValue computed display cells k =
        (match storeGet? cells k with
         | some raw => .str raw
         | none => .null)) := by
  refine ⟨?_, ?_, ?_⟩
  · intro h
    unfold getCellValue
    rw [if_pos h]
  · intro h1 h2
    obtain ⟨s, hs⟩ := SMap.isSome_get?_of_has _ _ h2
    refine ⟨s, hs, ?_⟩
    unfold getCellValue
    rw [if_neg (by simp [h1]), if_pos h2, hs]
  · intro h1 h2
    unfold getCellValue
    rw [if_neg (by simp [h1]), if_neg (by simp [h2])]

/-- Witness for C2's third tier: a present literal key is found in tier two,
an absent key falls through to `null`, and a raw formula text is handed back
as text. -/
theorem claim_C2_witness :
    getCellValue SMap.empty SMap.empty [("0:0", "=x")] "0:0" = .str "=x" :=
  ((claim_C2 SMap.empty SMap.empty [("0:0", "=x")] "0:0").2.2 (by decide)
    (by decide)).trans (by decide)

/-! ## Parse failures are inert (claim C4) -/

/-- With unique keys, a found entry splits the store around itself. -/
theorem storeGet?_decomp (cells : CellStore) (k v : String)
    (hnd : (cells.map Prod.fst).Nodup) (hget : storeGet? cells k = some v) :
    ∃ pre post, cells = pre ++ (k, v) :: post ∧
      (∀ e ∈ pre, e.1 ≠ k) ∧ (∀ e ∈ post, e.1 ≠ k) := by
  induction cells with
  | nil => cases hget
  | cons e rest ih =>
    rw [storeGet?_cons] at hget
    simp only [List.map_cons] at hnd
    by_cases hek : e.1 = k
    · rw [if_pos hek] at hget
      injection hget with hv
      refine ⟨[], rest, ?_, by simp, ?_⟩
      · have : e = (k, v) := by
          obtain ⟨e1, e2⟩ := e
          simp only at hek hv
          rw [hek, hv]
        rw [this]
        rfl
      · intro x hx hcon
        apply (List.nodup_cons.1 hnd).1
        rw [hek, ← hcon]
        exact List.mem_map.2 ⟨x, hx, rfl⟩
    · rw [if_neg hek] at hget
      obtain ⟨pre, post, heq, hpre, hpost⟩ := ih (List.nodup_cons.1 hnd).2 hget
      exact ⟨e :: pre, post, by rw [heq]; rfl,
        by
          intro x hx
          rcases List.mem_cons.1 hx with rfl | hx'
          · exact hek
          · exact hpre x hx', hpost⟩

/-- A parse step on a formula whose parse fails changes only the error
set. -/
theorem parseStep_error_eq (st : ParseState) (kv : String × String)
    (hfe : startsWithEq kv.2 = true)
    (hfail : parseFormula (tokenize (strDropFirst kv.2)) = none) :
    parseStep st kv = { st with formulaErrors := insertOnce st.formulaErrors kv.1 } := by
  unfold parseStep
  rw [if_neg (by simp [hfe]), hfail]

/-- The display, formula and dependency components of a parse step depend
only on those same three components of the state. -/
theorem parseStep_congr3 (s1 s2 : ParseState) (e : String × String)
    (h1 : s1.display = s2.display) (h2 : s1.formulas = s2.formulas)
    (h3 : s1.dependencies = s2.dependencies) :
    (parseStep s1 e).display = (parseStep s2 e).display ∧
    (parseStep s1 e).formulas = (parseStep s2 e).formulas ∧
    (parseStep s1 e).dependencies = (parseStep s2 e).dependencies := by
  unfold parseStep
  by_cases hl : startsWithEq e.2 = true
  · rw [if_neg (by simp [hl]), if_neg (by simp [hl])]
    cases parseFormula (tokenize (strDropFirst e.2)) with
    | none => exact ⟨h1, h2, h3⟩
    | some ast => exact ⟨h1, by rw [h2], by rw [h3]⟩
  · rw [if_pos (by simpa using hl), if_pos (by simpa using hl)]
    exact ⟨by rw [h1], h2, h3⟩

theorem parseFold_congr3 (l : CellStore) (s1 s2 : ParseState)
    (h1 : s1.display = s2.display) (h2 : s1.formulas = s2.formulas)
    (h3 : s1.dependencies = s2.dependencies) :
    (l.foldl parseStep s1).display = (l.foldl parseStep s2).display ∧
    (l.foldl parseStep s1).formulas = (l.foldl parseStep s2).formulas ∧
    (l.foldl parseStep s1).dependencies = (l.foldl parseStep s2).dependencies := by
  induction l generalizing s1 s2 with
  | nil => exact ⟨h1, h2, h3⟩
  | cons e rest ih =>
    simp only [List.foldl_cons]
    obtain ⟨g1, g2, g3⟩ := parseStep_congr3 s1 s2 e h1 h2 h3
    exact ih (parseStep s1 e) (parseStep s2 e) g1 g2 g3

/-- C4: a formula cell whose text fails to parse displays `'#ERROR'`, is
recorded in neither `formulas` nor `dependencies` (so it contributes no
graph edges), is never scheduled, and removing it from the store changes
nothing about the other cells' parse records or the topological order (it
never blocks anyone). -/
theorem claim_C4 (cells : CellStore) (k v : String)
    (hnd : (cells.map Prod.fst).Nodup) (hget : storeGet? cells k = some v)
    (hfe : startsWithEq v = true)
    (hfail : parseFormula (tokenize (strDropFirst v)) = none) :
    (calculateDisplayCells cells).get? k = some "#ERROR" ∧
    (parsePhase cells).formulas.get? k = none ∧
    (parsePhase cells).dependencies.get? k = none ∧
    k ∉ orderedOf cells ∧
    (parsePhase (cells.eraseP (fun e => e.1 == k))).display = (parsePhase cells).display ∧
    (parsePhase (cells.eraseP (fun e => e.1 == k))).formulas = (parsePhase cells).formulas ∧
    (parsePhase (cells.eraseP (fun e => e.1 == k))).dependencies =
      (parsePhase cells).dependencies ∧
    orderedOf (cells.eraseP (fun e => e.1 == k)) = orderedOf cells := by
  have po := parsePhase_at cells k v hnd hget
  unfold parseOutcome at po
  rw [hfe, hfail] at po
  obtain ⟨pd, pf, pe, pdep⟩ := po
  obtain ⟨pre, post, heq, hpre, hpost⟩ := storeGet?_decomp cells k v hnd hget
  have herase : cells.eraseP (fun e => e.1 == k) = pre ++ post := by
    rw [heq]
    rw [List.eraseP_append_right ((k, v) :: post) (fun b hb => by
      simp only [beq_iff_eq]
      exact hpre b hb)]
    congr 1
    exact List.eraseP_cons_of_pos (by simp)
  have hcong : (parsePhase (cells.eraseP (fun e => e.1 == k))).display =
        (parsePhase cells).display ∧
      (parsePhase (cells.eraseP (fun e => e.1 == k))).formulas =
        (parsePhase cells).formulas ∧
      (parsePhase (cells.eraseP (fun e => e.1 == k))).dependencies =
        (parsePhase cells).dependencies := by
    rw [herase, heq]
    unfold parsePhase
    rw [List.foldl_append, List.foldl_append, List.foldl_cons]
    apply parseFold_congr3
    · rw [parseStep_error_eq _ _ hfe hfail]
    · rw [parseStep_error_eq _ _ hfe hfail]
    · rw [parseStep_error_eq _ _ hfe hfail]
  have hnotord : k ∉ orderedOf cells := by
    intro hcon
    have hmem := ordered_subset_formulas cells k hcon
    rw [SMap.mem_keys_iff_has] at hmem
    obtain ⟨w, hw⟩ := SMap.isSome_get?_of_has _ _ hmem
    rw [pf] at hw
    cases hw
  refine ⟨display_parse_error cells k v hnd hget hfe hfail, pf, pdep, hnotord,
    hcong.1, hcong.2.1, hcong.2.2, ?_⟩
  unfold orderedOf kahnOf graphOf
  rw [hcong.2.1, hcong.2.2]

/-- Witness for C4: the claim's own scenario text `=1+` next to an unrelated
formula. -/
theorem claim_C4_witness :
    (calculateDisplayCells [("0:0", "=1+"), ("0:1", "=1+2")]).get? "0:0" =
      some "#ERROR" :=
  (claim_C4 [("0:0", "=1+"), ("0:1", "=1+2")] "0:0" "=1+"
    (by decide) (by decide) (by decide) (by with_unfolding_all rfl)).1

/-! ## The cycle characterization (claim C3): groundwork -/

mutual

/-- The collected dependency set stays duplicate-free (it models a JS
`Set`). -/
theorem collectDependencies_nodup (node : FormulaNode) :
    ∀ deps : List String, deps.Nodup → (collectDependencies node deps).Nodup := by
  cases node with
  | cell ref =>
    intro deps h
    unfold collectDependencies
    cases parseCellRef ref with
    | none => exact h
    | some c => exact insertOnce_nodup _ _ h
  | range s e =>
    intro deps h
    unfold collectDependencies
    exact foldlRec (fun l => l.Nodup) insertOnce _
      (fun s x _ hs => insertOnce_nodup s x hs) deps h
  | binary op l r =>
    intro deps h
    unfold collectDependencies
    exact collectDependencies_nodup r _ (collectDependencies_nodup l deps h)
  | unary op o =>
    intro deps h
    unfold collectDependencies
    exact collectDependencies_nodup o deps h
  | func name args =>
    intro deps h
    unfold collectDependencies
    exact collectDependenciesList_nodup args deps h
  | number v =>
    intro deps h
    unfold collectDependencies
    exact h

theorem collectDependenciesList_nodup (args : List FormulaNode) :
    ∀ deps : List String, deps.Nodup → (collectDependenciesList args deps).Nodup := by
  cases args with
  | nil =>
    intro deps h
    unfold collectDependenciesList
    exact h
  | cons a rest =>
    intro deps h
    unfold collectDependenciesList
    exact collectDependenciesList_nodup rest _ (collectDependencies_nodup a deps h)

end

theorem find?_eq_of_mem_nodup {β : Type} (l : List (String × β)) (k : String) (v : β)
    (hnd : (l.map Prod.fst).Nodup) (hmem : (k, v) ∈ l) :
    l.find? (fun e => e.1 == k) = some (k, v) := by
  induction l with
  | nil => cases hmem
  | cons e rest ih =>
    simp only [List.map_cons] at hnd
    rcases List.mem_cons.1 hmem with hc | hc
    · rw [← hc]
      exact List.find?_cons_of_pos _ (by simp)
    · have hne : e.1 ≠ k := by
        intro hcon
        apply (List.nodup_cons.1 hnd).1
        rw [hcon]
        exact List.mem_map.2 ⟨(k, v), hc, rfl⟩
      rw [List.find?_cons_of_neg _ (by simp [hne])]
      exact ih (List.nodup_cons.1 hnd).2 hc

theorem SMap.get?_eq_of_mem_nodup {β : Type} (m : SMap β) (k : String) (v : β)
    (hnd : m.keys.Nodup) (hmem : (k, v) ∈ m.entries) : m.get? k = some v := by
  unfold SMap.get?
  rw [find?_eq_of_mem_nodup m.entries k v hnd hmem]
  rfl

theorem storeGet?_eq_none_iff (cells : CellStore) (k : String) :
    storeGet? cells k = none ↔ k ∉ cells.map Prod.fst := by
  unfold storeGet?
  rw [Option.map_eq_none', List.find?_eq_none]
  constructor
  · intro h hcon
    obtain ⟨e, he, hek⟩ := List.mem_map.1 hcon
    exact absurd (by simp [hek]) (h e he)
  · intro h e he
    simp only [beq_iff_eq]
    intro hcon
    exact h (List.mem_map.2 ⟨e, he, hcon⟩)

theorem formulas_keys_subset_store (cells : CellStore) :
    ∀ k ∈ (parsePhase cells).formulas.keys, k ∈ cells.map Prod.fst := by
  intro k hk
  by_contra hcon
  have habs := (parsePhase_absent cells k ((storeGet?_eq_none_iff cells k).2 hcon)).2.1
  rw [SMap.mem_keys_iff_has] at hk
  obtain ⟨v, hv⟩ := SMap.isSome_get?_of_has _ _ hk
  rw [habs] at hv
  cases hv

/-- The nested loops of `addEdges` are the single fold of `edgeStep` over
the `(cell, dep)` pairs. -/
theorem addEdges_eq_pairs (formulas : SMap FormulaNode) (deps : SMap (List String))
    (g : GraphState) :
    addEdges formulas deps g = (depPairs deps).foldl (edgeStep formulas) g := by
  unfold addEdges depPairs
  rw [List.foldl_flatten, List.foldl_map]
  congr 1
  funext b cd
  rw [List.foldl_map]
  rfl

/-- A constant-value `set` fold over duplicate-free keys, looked up. -/
theorem foldl_setConst_get?_eq {β : Type} (l : List String) (c : β) (hnd : l.Nodup)
    (k : String) :
    (l.foldl (fun m k' => m.set k' c) SMap.empty).get? k =
      if k ∈ l then some c else none := by
  have hkeys : (l.foldl (fun m k' => m.set k' c) SMap.empty).keys = l := by
    rw [foldl_setConst_keys l c SMap.empty (fun _ _ => rfl) hnd]
    rfl
  by_cases hm : k ∈ l
  · rw [if_pos hm]
    have hhas : (l.foldl (fun m k' => m.set k' c) SMap.empty).has k = true := by
      rw [← SMap.mem_keys_iff_has, hkeys]
      exact hm
    obtain ⟨v, hv⟩ := SMap.isSome_get?_of_has _ _ hhas
    rw [hv, foldl_setConst_get? l c SMap.empty (fun d v h => by cases h) k v hv]
  · rw [if_neg hm]
    apply SMap.get?_eq_none_of_has_eq_false
    cases hb : (l.foldl (fun m k' => m.set k' c) SMap.empty).has k with
    | false => rfl
    | true =>
      exfalso
      apply hm
      rw [← hkeys]
      exact (SMap.mem_keys_iff_has _ _).2 hb

theorem mem_seedQueue_iff (m : SMap Int) (hnd : m.keys.Nodup) (x : String) :
    x ∈ seedQueue m ↔ m.get? x = some 0 := by
  unfold seedQueue
  constructor
  · intro hx
    obtain ⟨e, he, rfl⟩ := List.mem_map.1 hx
    have hef := List.mem_filter.1 he
    have he2 : e.2 = 0 := by simpa using hef.2
    have hget := SMap.get?_eq_of_mem_nodup m e.1 e.2 hnd (by
      obtain ⟨e1, e2⟩ := e
      exact hef.1)
    rw [hget, he2]
  · intro hx
    have hmem := SMap.mem_entries_of_get?_eq_some m x 0 hx
    exact List.mem_map.2 ⟨(x, 0), List.mem_filter.2 ⟨hmem, by simp⟩, rfl⟩

theorem seedQueue_nodup (m : SMap Int) (hnd : m.keys.Nodup) : (seedQueue m).Nodup := by
  unfold seedQueue
  have hsub : ((m.entries.filter (fun e => e.2 == 0)).map (fun e => e.1)).Sublist
      (m.entries.map (fun e => e.1)) :=
    (List.filter_sublist _).map _
  exact hsub.nodup hnd

/-! ## What the edge pass builds -/

/-- The running invariant of the edge pass, after the pairs `Pdone` have
been processed: each formula cell's indegree counts its processed
formula-cell dependencies, and each formula cell's adjacency set holds
exactly the cells whose processed dependencies include it. -/
theorem edgeFold_inv (formulas : SMap FormulaNode) :
    ∀ (R Pdone : List (String × String)) (g : GraphState),
    (∀ p ∈ R, p.1 ∈ formulas.keys) →
    (∀ c ∈ formulas.keys, g.indegree.get? c =
      some ((Pdone.filter (fun p => p.1 == c && formulas.has p.2)).length : Int)) →
    (∀ d ∈ formulas.keys, ∃ l, g.adjacency.get? d = some l ∧ l.Nodup ∧
      ∀ c, (c ∈ l ↔ (c, d) ∈ Pdone)) →
    (∀ c ∈ formulas.keys, (R.foldl (edgeStep formulas) g).indegree.get? c =
      some (((Pdone ++ R).filter (fun p => p.1 == c && formulas.has p.2)).length : Int)) ∧
    (∀ d ∈ formulas.keys, ∃ l, (R.foldl (edgeStep formulas) g).adjacency.get? d = some l ∧
      l.Nodup ∧ ∀ c, (c ∈ l ↔ (c, d) ∈ Pdone ++ R)) := by
  intro R
  induction R with
  | nil =>
    intro Pdone g _ hInd hAdj
    simpa using ⟨hInd, hAdj⟩
  | cons p R' ih =>
    intro Pdone g hR hInd hAdj
    have hp1 : p.1 ∈ formulas.keys := hR p (List.mem_cons_self _ _)
    have hstep :
        (∀ c ∈ formulas.keys, (edgeStep formulas g p).indegree.get? c =
          some (((Pdone ++ [p]).filter (fun q => q.1 == c && formulas.has q.2)).length : Int)) ∧
        (∀ d ∈ formulas.keys, ∃ l, (edgeStep formulas g p).adjacency.get? d = some l ∧
          l.Nodup ∧ ∀ c, (c ∈ l ↔ (c, d) ∈ Pdone ++ [p])) := by
      by_cases hhas : formulas.has p.2 = true
      · constructor
        · intro c hc
          unfold edgeStep
          rw [if_pos hhas]
          simp only
          by_cases hcp : c = p.1
          · subst hcp
            rw [SMap.get?_set_self]
            have hold := hInd p.1 hc
            unfold SMap.getD
            rw [hold]
            simp only [Option.getD_some]
            rw [List.filter_append]
            simp only [List.length_append]
            rw [List.filter_cons]
            rw [if_pos (by simp [hhas])]
            simp only [List.filter_nil, List.length_cons, List.length_nil]
            push_cast
            ring
          · rw [SMap.get?_set_other _ _ _ _ hcp]
            rw [hInd c hc, List.filter_append, List.filter_cons,
              if_neg (by simp [Ne.symm hcp])]
            simp
        · intro d hd
          unfold edgeStep
          rw [if_pos hhas]
          simp only
          by_cases hdp : d = p.2
          · subst hdp
            obtain ⟨l, hl, hlnd, hlmem⟩ := hAdj p.2 hd
            rw [hl]
            refine ⟨insertOnce l p.1, SMap.get?_set_self _ _ _,
              insertOnce_nodup _ _ hlnd, ?_⟩
            intro c
            rw [insertOnce_mem, hlmem c, List.mem_append, List.mem_singleton]
            constructor
            · rintro (h | h)
              · exact Or.inl h
              · exact Or.inr (by rw [h])
            · rintro (h | h)
              · exact Or.inl h
              · exact Or.inr (congrArg Prod.fst h)
          · obtain ⟨l, hl, hlnd, hlmem⟩ := hAdj d hd
            cases hl2 : g.adjacency.get? p.2 with
            | none =>
              refine ⟨l, hl, hlnd, ?_⟩
              intro c
              rw [hlmem c, List.mem_append, List.mem_singleton]
              constructor
              · exact Or.inl
              · rintro (h | h)
                · exact h
                · exact absurd (congrArg Prod.snd h) hdp
            | some l2 =>
              refine ⟨l, ?_, hlnd, ?_⟩
              · rw [SMap.get?_set_other _ _ _ _ hdp]
                exact hl
              · intro c
                rw [hlmem c, List.mem_append, List.mem_singleton]
                constructor
                · exact Or.inl
                · rintro (h | h)
                  · exact h
                  · exact absurd (congrArg Prod.snd h) hdp
      · constructor
        · intro c hc
          unfold edgeStep
          rw [if_neg hhas]
          rw [hInd c hc, List.filter_append, List.filter_cons,
            if_neg (by simp [hhas])]
          simp
        · intro d hd
          unfold edgeStep
          rw [if_neg hhas]
          obtain ⟨l, hl, hlnd, hlmem⟩ := hAdj d hd
          refine ⟨l, hl, hlnd, ?_⟩
          intro c
          rw [hlmem c, List.mem_append, List.mem_singleton]
          constructor
          · exact Or.inl
          · rintro (h | h)
            · exact h
            · exfalso
              apply hhas
              rw [← congrArg Prod.snd h]
              exact (SMap.mem_keys_iff_has _ _).1 hd
    have := ih (Pdone ++ [p]) (edgeStep formulas g p)
      (fun q hq => hR q (List.mem_cons_of_mem _ hq)) hstep.1 hstep.2
    simp only [List.foldl_cons]
    constructor
    · intro c hc
      rw [this.1 c hc]
      congr 2
      simp
    · intro d hd
      obtain ⟨l, hl, hlnd, hlmem⟩ := this.2 d hd
      refine ⟨l, hl, hlnd, ?_⟩
      intro c
      rw [hlmem c]
      simp

theorem depPairs_fst (deps : SMap (List String)) :
    ∀ p ∈ depPairs deps, p.1 ∈ deps.keys := by
  intro p hp
  unfold depPairs at hp
  rw [List.mem_flatten] at hp
  obtain ⟨L, hL, hpL⟩ := hp
  obtain ⟨cd, hcd, rfl⟩ := List.mem_map.1 hL
  obtain ⟨d, _, heq⟩ := List.mem_map.1 hpL
  rw [← heq]
  exact List.mem_map.2 ⟨cd, hcd, rfl⟩

theorem mem_depPairs (deps : SMap (List String)) (hnd : deps.keys.Nodup) (c d : String) :
    (c, d) ∈ depPairs deps ↔ ∃ dc, deps.get? c = some dc ∧ d ∈ dc := by
  unfold depPairs
  rw [List.mem_flatten]
  constructor
  · rintro ⟨L, hL, hp⟩
    obtain ⟨cd, hcd, rfl⟩ := List.mem_map.1 hL
    obtain ⟨d', hd', heq⟩ := List.mem_map.1 hp
    have hc : cd.1 = c := congrArg Prod.fst heq
    have hd2 : d' = d := congrArg Prod.snd heq
    refine ⟨cd.2, ?_, hd2 ▸ hd'⟩
    have hget := SMap.get?_eq_of_mem_nodup deps cd.1 cd.2 hnd (by
      obtain ⟨a, b⟩ := cd
      exact hcd)
    rw [← hc]
    exact hget
  · rintro ⟨dc, hdc, hd⟩
    have hmem := SMap.mem_entries_of_get?_eq_some deps c dc hdc
    exact ⟨dc.map (fun d' => (c, d')), List.mem_map.2 ⟨(c, dc), hmem, rfl⟩,
      List.mem_map.2 ⟨d, hd, rfl⟩⟩

theorem pairsFilterList (entries : List (String × List String)) (c : String)
    (dc : List String) (hnd : (entries.map Prod.fst).Nodup) (hmem : (c, dc) ∈ entries)
    (pred : String → Bool) :
    ((entries.map (fun cd => cd.2.map (fun d => (cd.1, d)))).flatten.filter
      (fun p => p.1 == c && pred p.2)) = (dc.filter pred).map (fun d => (c, d)) := by
  induction entries with
  | nil => cases hmem
  | cons e rest ih =>
    simp only [List.map_cons, List.flatten_cons, List.filter_append]
    simp only [List.map_cons] at hnd
    rcases List.mem_cons.1 hmem with hc | hc
    · obtain rfl : e = (c, dc) := hc.symm
      have h1 : (dc.map (fun d => ((c, dc).1, d))).filter
          (fun p => p.1 == c && pred p.2) = (dc.filter pred).map (fun d => (c, d)) := by
        rw [List.filter_map]
        congr 1
        apply List.filter_congr
        intro d _
        simp [Function.comp]
      have h2 : ((rest.map (fun cd => cd.2.map (fun d => (cd.1, d)))).flatten.filter
          (fun p => p.1 == c && pred p.2)) = [] := by
        rw [List.filter_eq_nil_iff]
        intro p hp
        rw [List.mem_flatten] at hp
        obtain ⟨L, hL, hpL⟩ := hp
        obtain ⟨cd, hcd, rfl⟩ := List.mem_map.1 hL
        obtain ⟨d, _, heq⟩ := List.mem_map.1 hpL
        have hp1 : p.1 = cd.1 := by rw [← heq]
        have hne : cd.1 ≠ c := by
          intro hcon
          exact (List.nodup_cons.1 hnd).1 (hcon ▸ List.mem_map.2 ⟨cd, hcd, rfl⟩)
        simp [hp1, hne]
      rw [h1, h2, List.append_nil]
    · have hne : e.1 ≠ c := fun hcon =>
        (List.nodup_cons.1 hnd).1 (hcon ▸ List.mem_map.2 ⟨(c, dc), hc, rfl⟩)
      have h1 : (e.2.map (fun d => (e.1, d))).filter
          (fun p => p.1 == c && pred p.2) = [] := by
        rw [List.filter_eq_nil_iff]
        intro p hp
        obtain ⟨d, _, heq⟩ := List.mem_map.1 hp
        have hp1 : p.1 = e.1 := by rw [← heq]
        simp [hp1, hne]
      rw [h1, List.nil_append]
      exact ih (List.nodup_cons.1 hnd).2 hc

theorem mem_precedentsOf (cells : CellStore) (c d : String) :
    d ∈ precedentsOf cells c ↔
      (d ∈ ((parsePhase cells).dependencies.get? c).getD [] ∧
       (parsePhase cells).formulas.has d = true) := by
  unfold precedentsOf
  rw [List.mem_filter]

/-- What `graphOf` builds: indegrees count formula-cell precedents, and each
formula cell's adjacency list holds exactly its formula-cell dependents. -/
theorem graphOf_spec (cells : CellStore) :
    (∀ c ∈ (parsePhase cells).formulas.keys,
      (graphOf cells).indegree.get? c = some ((precedentsOf cells c).length : Int)) ∧
    (∀ d ∈ (parsePhase cells).formulas.keys,
      ∃ l, (graphOf cells).adjacency.get? d = some l ∧ l.Nodup ∧
        ∀ c, (c ∈ l ↔ c ∈ (parsePhase cells).formulas.keys ∧
          d ∈ precedentsOf cells c)) := by
  have hndF : (parsePhase cells).formulas.keys.Nodup := (parsePhase_nodup cells).2.1
  have hndD : (parsePhase cells).dependencies.keys.Nodup := (parsePhase_nodup cells).2.2.1
  have hdk : (parsePhase cells).formulas.keys = (parsePhase cells).dependencies.keys :=
    parsePhase_deps_keys cells
  have hInd0 : ∀ c ∈ (parsePhase cells).formulas.keys,
      (graphInit (parsePhase cells).formulas).indegree.get? c =
        some ((([] : List (String × String)).filter
          (fun p => p.1 == c && (parsePhase cells).formulas.has p.2)).length : Int) := by
    intro c hc
    unfold graphInit
    simp only
    rw [foldl_setConst_get?_eq _ 0 hndF c, if_pos hc]
    simp
  have hAdj0 : ∀ d ∈ (parsePhase cells).formulas.keys,
      ∃ l, (graphInit (parsePhase cells).formulas).adjacency.get? d = some l ∧
        l.Nodup ∧ ∀ c, (c ∈ l ↔ (c, d) ∈ ([] : List (String × String))) := by
    intro d hd
    unfold graphInit
    refine ⟨[], ?_, List.nodup_nil, by simp⟩
    simp only
    rw [foldl_setConst_get?_eq _ [] hndF d, if_pos hd]
  have hfst : ∀ p ∈ depPairs (parsePhase cells).dependencies,
      p.1 ∈ (parsePhase cells).formulas.keys := by
    intro p hp
    rw [hdk]
    exact depPairs_fst _ p hp
  have hspec := edgeFold_inv (parsePhase cells).formulas
    (depPairs (parsePhase cells).dependencies) [] (graphInit (parsePhase cells).formulas)
    hfst hInd0 hAdj0
  have haddeq : graphOf cells = (depPairs (parsePhase cells).dependencies).foldl
      (edgeStep (parsePhase cells).formulas) (graphInit (parsePhase cells).formulas) := by
    unfold graphOf
    exact addEdges_eq_pairs _ _ _
  constructor
  · intro c hc
    rw [haddeq, hspec.1 c hc]
    have hcd : c ∈ (parsePhase cells).dependencies.keys := hdk ▸ hc
    obtain ⟨dc, hdc⟩ := SMap.isSome_get?_of_has _ _ ((SMap.mem_keys_iff_has _ _).1 hcd)
    have hfilter := pairsFilterList (parsePhase cells).dependencies.entries c dc hndD
      (SMap.mem_entries_of_get?_eq_some _ _ _ hdc)
      (fun d => (parsePhase cells).formulas.has d)
    congr 2
    show ((depPairs (parsePhase cells).dependencies).filter
      (fun p => p.1 == c && (parsePhase cells).formulas.has p.2)).length =
      (precedentsOf cells c).length
    unfold depPairs
    rw [hfilter, List.length_map]
    unfold precedentsOf
    rw [hdc]
    rfl
  · intro d hd
    rw [haddeq]
    obtain ⟨l, hl, hlnd, hlmem⟩ := hspec.2 d hd
    refine ⟨l, hl, hlnd, ?_⟩
    intro c
    rw [hlmem c]
    simp only [List.nil_append]
    rw [mem_depPairs _ hndD c d]
    constructor
    · rintro ⟨dc, hdc, hmemd⟩
      have hck : c ∈ (parsePhase cells).dependencies.keys :=
        (SMap.mem_keys_iff_has _ _).2 (SMap.has_of_get?_eq_some _ _ _ hdc)
      refine ⟨hdk ▸ hck, ?_⟩
      rw [mem_precedentsOf, hdc]
      exact ⟨hmemd, (SMap.mem_keys_iff_has _ _).1 hd⟩
    · rintro ⟨hck, hpre⟩
      rw [mem_precedentsOf] at hpre
      have hcd : c ∈ (parsePhase cells).dependencies.keys := hdk ▸ hck
      obtain ⟨dc, hdc⟩ := SMap.isSome_get?_of_has _ _ ((SMap.mem_keys_iff_has _ _).1 hcd)
      refine ⟨dc, hdc, ?_⟩
      rw [hdc] at hpre
      exact hpre.1

/-! ## The Kahn loop -/

theorem contains_eq_false_iff (l : List String) (x : String) :
    l.contains x = false ↔ x ∉ l := by
  rw [← Bool.not_eq_true]
  exact not_congr (contains_eq_true_iff l x)

theorem contains_append_not (B t : List String) (x : String) :
    (!((B ++ t).contains x)) = (!(B.contains x) && !(t.contains x)) := by
  cases hB : B.contains x <;> cases hc : (B ++ t).contains x <;>
    cases ht : t.contains x <;>
      simp_all [contains_eq_true_iff, contains_eq_false_iff, List.mem_append]

theorem contains_singleton (cur x : String) : ([cur].contains x) = (x == cur) := by
  simp only [List.contains_eq_any_beq, List.any_cons, List.any_nil, Bool.or_false]

theorem filter_ne_length (xs : List String) (hnd : xs.Nodup) (cur : String)
    (h : cur ∈ xs) :
    (xs.filter (fun d => !(d == cur))).length + 1 = xs.length := by
  induction xs with
  | nil => cases h
  | cons x rest ih =>
    rcases List.mem_cons.1 h with rfl | hmem
    · have hrest : rest.filter (fun d => !(d == cur)) = rest := by
        rw [List.filter_eq_self]
        intro d hd
        have : d ≠ cur := fun hcon => (List.nodup_cons.1 hnd).1 (hcon ▸ hd)
        simp [this]
      rw [List.filter_cons_of_neg (by simp), hrest, List.length_cons]
    · have hne : x ≠ cur := fun hcon =>
        (List.nodup_cons.1 hnd).1 (hcon ▸ hmem)
      rw [List.filter_cons_of_pos (by simp [hne]), List.length_cons,
        List.length_cons, ← ih (List.nodup_cons.1 hnd).2 hmem]

theorem filter_not_mem_length (t : List String) :
    ∀ M : List String, M.Nodup → t.Nodup → (∀ x ∈ t, x ∈ M) →
    (M.filter (fun x => !(t.contains x))).length + t.length = M.length := by
  induction t with
  | nil =>
    intro M _ _ _
    simp
  | cons a t' ih =>
    intro M hM hnd hsub
    have hsplit : M.filter (fun x => !((a :: t').contains x)) =
        (M.filter (fun x => !(x == a))).filter (fun x => !(t'.contains x)) := by
      rw [List.filter_filter]
      apply List.filter_congr
      intro x _
      have hcons : ((a :: t').contains x) = (([a] ++ t').contains x) := rfl
      rw [hcons, contains_append_not, contains_singleton]
      exact Bool.and_comm _ _
    have hsub' : ∀ x ∈ t', x ∈ M.filter (fun x => !(x == a)) := by
      intro x hx
      rw [List.mem_filter]
      refine ⟨hsub x (List.mem_cons_of_mem a hx), ?_⟩
      have : x ≠ a := fun hcon => (List.nodup_cons.1 hnd).1 (hcon ▸ hx)
      simp [this]
    have hlen := ih (M.filter (fun x => !(x == a))) (hM.filter _)
      (List.nodup_cons.1 hnd).2 hsub'
    have hfe := filter_ne_length M hM a (hsub a (List.mem_cons_self a t'))
    rw [hsplit, List.length_cons]
    omega

theorem remCount_nil (cells : CellStore) (c : String) :
    remCount cells [] c = (precedentsOf cells c).length := by
  unfold remCount
  simp

theorem remCount_zero_iff (cells : CellStore) (ordered : List String) (c : String) :
    remCount cells ordered c = 0 ↔ ∀ d ∈ precedentsOf cells c, d ∈ ordered := by
  unfold remCount
  rw [List.length_eq_zero, List.filter_eq_nil_iff]
  constructor
  · intro h d hd
    have h2 := h d hd
    rw [← contains_eq_true_iff]
    simpa using h2
  · intro h d hd
    have h2 := (contains_eq_true_iff ordered d).2 (h d hd)
    simp [h2, h d hd]

theorem remCount_append_not_mem (cells : CellStore) (ordered : List String)
    (cur c : String) (h : cur ∉ precedentsOf cells c) :
    remCount cells (ordered ++ [cur]) c = remCount cells ordered c := by
  unfold remCount
  congr 1
  apply List.filter_congr
  intro d hd
  have hdc : d ≠ cur := fun hcon => h (hcon ▸ hd)
  rw [contains_append_not, contains_singleton]
  simp [hdc]

theorem remCount_append_mem (cells : CellStore) (ordered : List String)
    (cur c : String) (hnd : (precedentsOf cells c).Nodup)
    (hmem : cur ∈ precedentsOf cells c) (hord : cur ∉ ordered) :
    remCount cells (ordered ++ [cur]) c + 1 = remCount cells ordered c := by
  unfold remCount
  have hsplit : (precedentsOf cells c).filter
      (fun d => !((ordered ++ [cur]).contains d)) =
      ((precedentsOf cells c).filter (fun d => !(ordered.contains d))).filter
        (fun d => !(d == cur)) := by
    rw [List.filter_filter]
    apply List.filter_congr
    intro d _
    rw [contains_append_not, contains_singleton]
    exact Bool.and_comm _ _
  rw [hsplit]
  apply filter_ne_length _ (hnd.filter _) cur
  rw [List.mem_filter]
  refine ⟨hmem, ?_⟩
  have hfalse : ordered.contains cur = false := (contains_eq_false_iff _ _).2 hord
  simp [hfalse, hord]

theorem deps_values_nodup (cells : CellStore) :
    ∀ c dc, (parsePhase cells).dependencies.get? c = some dc → dc.Nodup := by
  unfold parsePhase
  refine foldlRec (fun s => ∀ c dc, s.dependencies.get? c = some dc → dc.Nodup)
    parseStep cells ?_ ⟨SMap.empty, SMap.empty, [], SMap.empty⟩ ?_
  · intro s e _ hs c dc hget
    unfold parseStep at hget
    by_cases h1 : startsWithEq e.2 = true
    · rw [if_neg (by simp [h1])] at hget
      cases hast : parseFormula (tokenize (strDropFirst e.2)) with
      | none =>
        rw [hast] at hget
        exact hs c dc hget
      | some ast =>
        rw [hast] at hget
        simp only at hget
        by_cases hc : c = e.1
        · subst hc
          rw [SMap.get?_set_self] at hget
          injection hget with hget
          rw [← hget]
          exact collectDependencies_nodup ast [] List.nodup_nil
        · rw [SMap.get?_set_other _ e.1 c _ hc] at hget
          exact hs c dc hget
    · rw [if_pos (by simpa using h1)] at hget
      exact hs c dc hget
  · intro c dc hget
    cases hget

theorem precedentsOf_nodup (cells : CellStore) (c : String) :
    (precedentsOf cells c).Nodup := by
  unfold precedentsOf
  cases hget : (parsePhase cells).dependencies.get? c with
  | none => simp
  | some dc =>
    simp only [Option.getD_some]
    exact (deps_values_nodup cells c dc hget).filter _

theorem precedentsOf_subset_nodes (cells : CellStore) (c : String) :
    ∀ d ∈ precedentsOf cells c, d ∈ nodesOf cells := by
  intro d hd
  rw [mem_precedentsOf] at hd
  exact (SMap.mem_keys_iff_has _ _).2 hd.2

theorem kahnVisit_eq_fold (adjacency : SMap (List String)) (current : String)
    (st : KahnState) :
    kahnVisit adjacency current st =
      ((adjacency.get? current).getD []).foldl visitStep st := rfl

theorem visitFold_spec (l : List String) (hnd : l.Nodup) (st : KahnState) :
    (l.foldl visitStep st).ordered = st.ordered ∧
    (∀ x, x ∉ l → (l.foldl visitStep st).indegree.get? x = st.indegree.get? x) ∧
    (∀ x ∈ l, (l.foldl visitStep st).indegree.get? x =
      some (st.indegree.getD x 0 - 1)) ∧
    (l.foldl visitStep st).queue =
      st.queue ++ l.filter (fun x => st.indegree.getD x 0 - 1 == 0) := by
  induction l generalizing st with
  | nil => exact ⟨rfl, fun _ _ => rfl, by simp, by simp⟩
  | cons x xs ih =>
    have hx : x ∉ xs := (List.nodup_cons.1 hnd).1
    obtain ⟨iho, ihf, ihm, ihq⟩ := ih (List.nodup_cons.1 hnd).2 (visitStep st x)
    simp only [List.foldl_cons]
    have hio : (visitStep st x).ordered = st.ordered := rfl
    have hii : (visitStep st x).indegree =
        st.indegree.set x (st.indegree.getD x 0 - 1) := rfl
    have hiq : (visitStep st x).queue =
        if st.indegree.getD x 0 - 1 = 0 then st.queue ++ [x] else st.queue := rfl
    refine ⟨by rw [iho, hio], ?_, ?_, ?_⟩
    · intro y hy
      have hyx : y ≠ x := fun hcon => hy (hcon ▸ List.mem_cons_self x xs)
      have hyxs : y ∉ xs := fun hcon => hy (List.mem_cons_of_mem x hcon)
      rw [ihf y hyxs, hii, SMap.get?_set_other _ x y _ hyx]
    · intro y hy
      rcases List.mem_cons.1 hy with rfl | hyxs
      · rw [ihf y hx, hii, SMap.get?_set_self]
      · have hyx : y ≠ x := fun hcon => hx (hcon ▸ hyxs)
        rw [ihm y hyxs, hii]
        have hgd : (st.indegree.set x (st.indegree.getD x 0 - 1)).getD y 0 =
            st.indegree.getD y 0 := by
          unfold SMap.getD
          rw [SMap.get?_set_other _ x y _ hyx]
        rw [hgd]
    · have hcong : xs.filter
          (fun y => (visitStep st x).indegree.getD y 0 - 1 == 0) =
          xs.filter (fun y => st.indegree.getD y 0 - 1 == 0) := by
        apply List.filter_congr
        intro y hyxs
        have hyx : y ≠ x := fun hcon => hx (hcon ▸ hyxs)
        have hgd : (visitStep st x).indegree.getD y 0 = st.indegree.getD y 0 := by
          rw [hii]
          unfold SMap.getD
          rw [SMap.get?_set_other _ x y _ hyx]
        rw [hgd]
      rw [ihq, hcong, hiq]
      by_cases hc : st.indegree.getD x 0 - 1 = 0
      · rw [if_pos hc, List.filter_cons_of_pos (by simp [hc]),
          List.append_assoc]
        rfl
      · rw [if_neg hc, List.filter_cons_of_neg (by simp [hc])]

theorem graphOf_keys (cells : CellStore) :
    (graphOf cells).adjacency.keys = nodesOf cells ∧
    (graphOf cells).indegree.keys = nodesOf cells := by
  have hndF : (parsePhase cells).formulas.keys.Nodup := (parsePhase_nodup cells).2.1
  have hinit := graphInit_keys (parsePhase cells).formulas hndF
  have hdk := parsePhase_deps_keys cells
  have hind : ∀ cd ∈ (parsePhase cells).dependencies.entries,
      (graphInit (parsePhase cells).formulas).indegree.has cd.1 = true := by
    intro cd hcd
    rw [← SMap.mem_keys_iff_has, hinit.2, hdk]
    exact List.mem_map.2 ⟨cd, hcd, rfl⟩
  have hkeys := addEdges_keys (parsePhase cells).formulas
    (parsePhase cells).dependencies (graphInit (parsePhase cells).formulas) hind
  unfold graphOf
  exact ⟨by rw [hkeys.1, hinit.1]; rfl, by rw [hkeys.2, hinit.2]; rfl⟩

/-- The state the seeded queue starts the Kahn loop in satisfies the loop
invariant. -/
theorem kahnInit_inv (cells : CellStore) :
    KInv cells ⟨(graphOf cells).indegree, seedQueue (graphOf cells).indegree, []⟩ := by
  have hndN : (nodesOf cells).Nodup := (parsePhase_nodup cells).2.1
  have hik : (graphOf cells).indegree.keys = nodesOf cells := (graphOf_keys cells).2
  have hiknd : (graphOf cells).indegree.keys.Nodup := by rw [hik]; exact hndN
  have hseed : ∀ x, x ∈ seedQueue (graphOf cells).indegree ↔
      (graphOf cells).indegree.get? x = some 0 :=
    fun x => mem_seedQueue_iff _ hiknd x
  have hqN : ∀ x ∈ seedQueue (graphOf cells).indegree, x ∈ nodesOf cells := by
    intro x hx
    rw [← hik, SMap.mem_keys_iff_has]
    exact SMap.has_of_get?_eq_some _ _ _ ((hseed x).1 hx)
  refine ⟨hqN, ?_, ?_, ?_, ?_, ?_, ?_⟩
  · intro x hx
    cases hx
  · exact seedQueue_nodup _ hiknd
  · intro c hc
    rw [(graphOf_spec cells).1 c hc, remCount_nil]
  · intro c hc h0
    right
    rw [hseed c, (graphOf_spec cells).1 c hc]
    rw [remCount_nil] at h0
    rw [h0]
    rfl
  · intro c hc
    have h1 := (hseed c).1 hc
    have h2 := (graphOf_spec cells).1 c (hqN c hc)
    rw [h1] at h2
    injection h2 with h2
    rw [remCount_nil]
    omega
  · intro i h
    cases h

/-- One iteration of the Kahn loop: dequeuing a ready cell and visiting its
dependents preserves the invariant and shrinks the measure by exactly one. -/
theorem kahnIter (cells : CellStore) (hne : "" ∉ nodesOf cells)
    (indeg : SMap Int) (current : String) (rest ord : List String)
    (hI : KInv cells ⟨indeg, current :: rest, ord⟩) :
    current ≠ "" ∧
    KInv cells (kahnVisit (graphOf cells).adjacency current
      ⟨indeg, rest, ord ++ [current]⟩) ∧
    kahnMeasure cells ⟨indeg, current :: rest, ord⟩ =
      kahnMeasure cells (kahnVisit (graphOf cells).adjacency current
        ⟨indeg, rest, ord ++ [current]⟩) + 1 := by
  have hndN : (nodesOf cells).Nodup := (parsePhase_nodup cells).2.1
  have hqN : ∀ x ∈ current :: rest, x ∈ nodesOf cells := hI.qN
  have hoN : ∀ x ∈ ord, x ∈ nodesOf cells := hI.oN
  have hndO : (ord ++ current :: rest).Nodup := hI.nd
  have hind : ∀ c ∈ nodesOf cells,
      indeg.get? c = some ((remCount cells ord c : Int)) := hI.ind
  have hzeroQ : ∀ c ∈ nodesOf cells, remCount cells ord c = 0 →
      c ∈ ord ∨ c ∈ current :: rest := hI.zeroQ
  have hqZero : ∀ c ∈ current :: rest, remCount cells ord c = 0 := hI.qZero
  have htopo : ∀ i (h : i < ord.length),
      ∀ d ∈ precedentsOf cells (ord.get ⟨i, h⟩), d ∈ ord.take i := hI.topo
  have hcurN : current ∈ nodesOf cells := hqN current (List.mem_cons_self _ _)
  have hcne : current ≠ "" := fun hcon => hne (hcon ▸ hcurN)
  have hcur_not_ord : current ∉ ord := fun hcon =>
    (List.nodup_append.1 hndO).2.2 hcon (List.mem_cons_self _ _)
  have hcur_rem : remCount cells ord current = 0 :=
    hqZero current (List.mem_cons_self _ _)
  obtain ⟨l, hladj, hlnd, hlmem⟩ := (graphOf_spec cells).2 current hcurN
  have hfold : kahnVisit (graphOf cells).adjacency current
      ⟨indeg, rest, ord ++ [current]⟩ =
      l.foldl visitStep ⟨indeg, rest, ord ++ [current]⟩ := by
    rw [kahnVisit_eq_fold, hladj]
    rfl
  have hvs := visitFold_spec l hlnd ⟨indeg, rest, ord ++ [current]⟩
  have ho : (l.foldl visitStep ⟨indeg, rest, ord ++ [current]⟩).ordered =
      ord ++ [current] := hvs.1
  have hframe : ∀ x, x ∉ l →
      (l.foldl visitStep ⟨indeg, rest, ord ++ [current]⟩).indegree.get? x =
        indeg.get? x := hvs.2.1
  have hmemb : ∀ x ∈ l,
      (l.foldl visitStep ⟨indeg, rest, ord ++ [current]⟩).indegree.get? x =
        some (indeg.getD x 0 - 1) := hvs.2.2.1
  have hqueue : (l.foldl visitStep ⟨indeg, rest, ord ++ [current]⟩).queue =
      rest ++ l.filter (fun x => indeg.getD x 0 - 1 == 0) := hvs.2.2.2
  have hrem_mem : ∀ x ∈ l,
      remCount cells (ord ++ [current]) x + 1 = remCount cells ord x := fun x hx =>
    remCount_append_mem cells ord current x (precedentsOf_nodup cells x)
      ((hlmem x).1 hx).2 hcur_not_ord
  have hrem_frame : ∀ c ∈ nodesOf cells, c ∉ l →
      remCount cells (ord ++ [current]) c = remCount cells ord c := by
    intro c hc hcl
    apply remCount_append_not_mem
    exact fun hcon => hcl ((hlmem c).2 ⟨hc, hcon⟩)
  have hgd : ∀ x ∈ l, indeg.getD x 0 = ((remCount cells ord x : Nat) : Int) := by
    intro x hx
    have h1 := hind x ((hlmem x).1 hx).1
    unfold SMap.getD
    rw [h1]
    rfl
  have hnew : ∀ x, (x ∈ l.filter (fun x => indeg.getD x 0 - 1 == 0)) ↔
      (x ∈ l ∧ remCount cells (ord ++ [current]) x = 0) := by
    intro x
    rw [List.mem_filter]
    constructor
    · rintro ⟨hxl, hxe⟩
      refine ⟨hxl, ?_⟩
      rw [hgd x hxl] at hxe
      have h1 : ((remCount cells ord x : Nat) : Int) - 1 = 0 := by simpa using hxe
      have h2 := hrem_mem x hxl
      omega
    · rintro ⟨hxl, hx0⟩
      refine ⟨hxl, ?_⟩
      rw [hgd x hxl]
      have h2 := hrem_mem x hxl
      have h1 : ((remCount cells ord x : Nat) : Int) - 1 = 0 := by omega
      simp [h1]
  have hord_rem : ∀ x ∈ ord, remCount cells ord x = 0 := by
    intro x hx
    obtain ⟨⟨i, hi⟩, hget⟩ := List.mem_iff_get.1 hx
    rw [remCount_zero_iff]
    intro d hd
    exact List.take_subset i ord (htopo i hi d (by rw [hget]; exact hd))
  have hnew_fresh : ∀ x ∈ l.filter (fun x => indeg.getD x 0 - 1 == 0),
      x ∉ ord ∧ x ∉ current :: rest := by
    intro x hx
    obtain ⟨hxl, hx0⟩ := (hnew x).1 hx
    have hx1 : remCount cells ord x = 1 := by
      have := hrem_mem x hxl
      omega
    constructor
    · intro hcon
      have := hord_rem x hcon
      omega
    · intro hcon
      have := hqZero x hcon
      omega
  refine ⟨hcne, ?_, ?_⟩
  · rw [hfold]
    refine ⟨?_, ?_, ?_, ?_, ?_, ?_, ?_⟩
    · intro x hx
      rw [hqueue] at hx
      rcases List.mem_append.1 hx with h | h
      · exact hqN x (List.mem_cons_of_mem _ h)
      · exact ((hlmem x).1 (List.mem_filter.1 h).1).1
    · intro x hx
      rw [ho] at hx
      rcases List.mem_append.1 hx with h | h
      · exact hoN x h
      · rw [List.mem_singleton.1 h]
        exact hcurN
    · rw [ho, hqueue]
      have hA : ((ord ++ [current]) ++ rest).Nodup := by
        rw [List.append_assoc]
        exact hndO
      rw [← List.append_assoc, List.nodup_append]
      refine ⟨hA, hlnd.filter _, ?_⟩
      intro a haA hanew
      obtain ⟨hfo, hfq⟩ := hnew_fresh a hanew
      rcases List.mem_append.1 haA with h | h
      · rcases List.mem_append.1 h with h2 | h2
        · exact hfo h2
        · exact hfq (by rw [List.mem_singleton.1 h2]; exact List.mem_cons_self _ _)
      · exact hfq (List.mem_cons_of_mem _ h)
    · intro c hc
      rw [ho]
      by_cases hcl : c ∈ l
      · rw [hmemb c hcl, hgd c hcl]
        have h2 := hrem_mem c hcl
        congr 1
        omega
      · rw [hframe c hcl, hind c hc, hrem_frame c hc hcl]
    · intro c hc h0
      rw [ho] at h0
      rw [ho, hqueue]
      by_cases hcl : c ∈ l
      · right
        exact List.mem_append.2 (Or.inr ((hnew c).2 ⟨hcl, h0⟩))
      · have h0' : remCount cells ord c = 0 := by
          rw [← hrem_frame c hc hcl]
          exact h0
        rcases hzeroQ c hc h0' with h | h
        · left
          exact List.mem_append.2 (Or.inl h)
        · rcases List.mem_cons.1 h with rfl | h2
          · left
            exact List.mem_append.2 (Or.inr (List.mem_singleton.2 rfl))
          · right
            exact List.mem_append.2 (Or.inl h2)
    · intro c hc
      rw [hqueue] at hc
      rw [ho]
      rcases List.mem_append.1 hc with h | h
      · have h0 := hqZero c (List.mem_cons_of_mem _ h)
        have hcN := hqN c (List.mem_cons_of_mem _ h)
        by_cases hcl : c ∈ l
        · have := hrem_mem c hcl
          omega
        · rw [hrem_frame c hcN hcl]
          exact h0
      · exact ((hnew c).1 h).2
    · rw [ho]
      intro i hi d hd
      by_cases hilt : i < ord.length
      · have hget : (ord ++ [current]).get ⟨i, hi⟩ = ord.get ⟨i, hilt⟩ := by
          rw [List.get_eq_getElem, List.get_eq_getElem]
          exact List.getElem_append_left hilt
        rw [List.take_append_of_le_length (le_of_lt hilt)]
        rw [hget] at hd
        exact htopo i hilt d hd
      · have hieq : i = ord.length := by
          have hlen : i < ord.length + 1 := by simpa using hi
          omega
        subst hieq
        have hget : (ord ++ [current]).get ⟨ord.length, hi⟩ = current := by
          rw [List.get_eq_getElem]
          exact List.getElem_concat_length ord current _ rfl hi
        rw [hget] at hd
        rw [List.take_left]
        exact (remCount_zero_iff cells ord current).1 hcur_rem d hd
  · rw [hfold]
    unfold kahnMeasure
    rw [ho, hqueue]
    rw [show ord ++ current :: rest = (ord ++ [current]) ++ rest from by
      rw [List.append_assoc]
      rfl]
    rw [← List.append_assoc]
    have hfsplit : (nodesOf cells).filter
        (fun c => !((((ord ++ [current]) ++ rest) ++
          l.filter (fun x => indeg.getD x 0 - 1 == 0)).contains c)) =
        ((nodesOf cells).filter
          (fun c => !(((ord ++ [current]) ++ rest).contains c))).filter
          (fun c => !((l.filter (fun x => indeg.getD x 0 - 1 == 0)).contains c)) := by
      rw [List.filter_filter]
      apply List.filter_congr
      intro c _
      rw [contains_append_not]
      exact Bool.and_comm _ _
    have hsub : ∀ x ∈ l.filter (fun x => indeg.getD x 0 - 1 == 0),
        x ∈ (nodesOf cells).filter
          (fun c => !(((ord ++ [current]) ++ rest).contains c)) := by
      intro x hx
      obtain ⟨hfo, hfq⟩ := hnew_fresh x hx
      rw [List.mem_filter]
      refine ⟨((hlmem x).1 (List.mem_filter.1 hx).1).1, ?_⟩
      have hxm : x ∉ (ord ++ [current]) ++ rest := by
        intro hcon
        rcases List.mem_append.1 hcon with h | h
        · rcases List.mem_append.1 h with h2 | h2
          · exact hfo h2
          · exact hfq (by rw [List.mem_singleton.1 h2]; exact List.mem_cons_self _ _)
        · exact hfq (List.mem_cons_of_mem _ h)
      rw [(contains_eq_false_iff _ _).2 hxm]
      rfl
    have hcount := filter_not_mem_length (l.filter (fun x => indeg.getD x 0 - 1 == 0))
      ((nodesOf cells).filter (fun c => !(((ord ++ [current]) ++ rest).contains c)))
      (hndN.filter _) (hlnd.filter _) hsub
    rw [hfsplit]
    simp only [List.length_append, List.length_cons]
    omega

theorem kahnLoop_nil (adjacency : SMap (List String)) (fuel : Nat) (st : KahnState)
    (hq : st.queue = []) : kahnLoop adjacency (fuel + 1) st = st := by
  obtain ⟨indeg, queue, ord⟩ := st
  simp only at hq
  subst hq
  simp only [kahnLoop]

theorem kahnLoop_cons (adjacency : SMap (List String)) (fuel : Nat)
    (indeg : SMap Int) (current : String) (rest ord : List String)
    (hne : current ≠ "") :
    kahnLoop adjacency (fuel + 1) ⟨indeg, current :: rest, ord⟩ =
      kahnLoop adjacency fuel
        (kahnVisit adjacency current ⟨indeg, rest, ord ++ [current]⟩) := by
  simp only [kahnLoop]
  rw [if_neg hne]

/-- Enough fuel runs the Kahn loop to completion: the invariant holds of the
final state and the queue is exhausted (the source loop's `while` condition,
not the fuel, is what stopped it). -/
theorem kahnLoop_inv (cells : CellStore) (hne : "" ∉ nodesOf cells) :
    ∀ (fuel : Nat) (st : KahnState), KInv cells st → kahnMeasure cells st ≤ fuel →
    KInv cells (kahnLoop (graphOf cells).adjacency fuel st) ∧
    (kahnLoop (graphOf cells).adjacency fuel st).queue = [] := by
  intro fuel
  induction fuel with
  | zero =>
    intro st hI hm
    have hlen : st.queue.length = 0 := by
      unfold kahnMeasure at hm
      omega
    exact ⟨hI, List.length_eq_zero.1 hlen⟩
  | succ fuel ih =>
    intro st hI hm
    obtain ⟨indeg, queue, ord⟩ := st
    cases queue with
    | nil =>
      rw [kahnLoop_nil _ _ _ rfl]
      exact ⟨hI, rfl⟩
    | cons current rest =>
      obtain ⟨hcne, hI', hm'⟩ := kahnIter cells hne indeg current rest ord hI
      rw [kahnLoop_cons _ _ _ _ _ _ hcne]
      exact ih _ hI' (by omega)

/-- The Kahn pass ends with the invariant and an empty queue. -/
theorem kahnOf_inv (cells : CellStore) (hne : "" ∉ nodesOf cells) :
    KInv cells (kahnOf cells) ∧ (kahnOf cells).queue = [] := by
  have hndN : (nodesOf cells).Nodup := (parsePhase_nodup cells).2.1
  have hinit := kahnInit_inv cells
  have h1 : ((nodesOf cells).filter (fun c =>
      !((([] : List String) ++ seedQueue (graphOf cells).indegree).contains c))).length
      ≤ (nodesOf cells).length := List.length_filter_le _ _
  have h2 : (nodesOf cells).length = (graphOf cells).adjacency.entries.length := by
    rw [← (graphOf_keys cells).1]
    unfold SMap.keys
    rw [List.length_map]
  have hfuel : kahnMeasure cells
      ⟨(graphOf cells).indegree, seedQueue (graphOf cells).indegree, []⟩ ≤
      (seedQueue (graphOf cells).indegree).length +
        (graphOf cells).adjacency.entries.length + 1 := by
    unfold kahnMeasure
    simp only
    omega
  exact kahnLoop_inv cells hne _ _ hinit hfuel

theorem orderedOf_nodup (cells : CellStore) (hne : "" ∉ nodesOf cells) :
    (orderedOf cells).Nodup := by
  obtain ⟨hI, hq⟩ := kahnOf_inv cells hne
  have h := hI.nd
  rw [hq, List.append_nil] at h
  exact h

/-- A direct formula dependency of an ordered cell sits strictly earlier in
the topological order. -/
theorem topo_step_lt (cells : CellStore) (hne : "" ∉ nodesOf cells) :
    ∀ a b, formulaDep cells a b →
    ∀ i (hi : i < (orderedOf cells).length), (orderedOf cells).get ⟨i, hi⟩ = a →
    ∃ j, ∃ hj : j < (orderedOf cells).length,
      (orderedOf cells).get ⟨j, hj⟩ = b ∧ j < i := by
  intro a b hdep i hi hget
  have hI := (kahnOf_inv cells hne).1
  have htopo : ∀ i (h : i < (orderedOf cells).length),
      ∀ d ∈ precedentsOf cells ((orderedOf cells).get ⟨i, h⟩),
      d ∈ (orderedOf cells).take i := hI.topo
  have hbmem : b ∈ (orderedOf cells).take i := by
    apply htopo i hi
    rw [hget]
    exact hdep.2
  obtain ⟨⟨j, hj⟩, hjget⟩ := List.mem_iff_get.1 hbmem
  rw [List.length_take, lt_min_iff] at hj
  refine ⟨j, hj.2, ?_, hj.1⟩
  rw [← hjget, List.get_eq_getElem, List.get_eq_getElem, List.getElem_take]

/-- A transitive formula dependency of an ordered cell also sits strictly
earlier in the topological order. -/
theorem dependsOn_idx (cells : CellStore) (hne : "" ∉ nodesOf cells) (a b : String)
    (h : dependsOn cells a b) :
    ∀ i (hi : i < (orderedOf cells).length), (orderedOf cells).get ⟨i, hi⟩ = a →
    ∃ j, ∃ hj : j < (orderedOf cells).length,
      (orderedOf cells).get ⟨j, hj⟩ = b ∧ j < i := by
  induction h with
  | single hstep => exact topo_step_lt cells hne _ _ hstep
  | tail hab hbc ih =>
    intro i hi hget
    obtain ⟨j, hj, hjb, hji⟩ := ih i hi hget
    obtain ⟨m, hm, hmc, hmj⟩ := topo_step_lt cells hne _ _ hbc j hj hjb
    exact ⟨m, hm, hmc, by omega⟩

theorem cycle_not_ordered (cells : CellStore) (hne : "" ∉ nodesOf cells) (c : String)
    (hcyc : dependsOn cells c c) : c ∉ orderedOf cells := by
  intro hmem
  obtain ⟨⟨i, hi⟩, hget⟩ := List.mem_iff_get.1 hmem
  obtain ⟨j, hj, hjc, hji⟩ := dependsOn_idx cells hne c c hcyc i hi hget
  have hij : (⟨i, hi⟩ : Fin (orderedOf cells).length) = ⟨j, hj⟩ :=
    (List.Nodup.get_inj_iff (orderedOf_nodup cells hne)).1 (by rw [hget, hjc])
  have : i = j := by
    injection hij
  omega

/-- A cycle-bound formula cell is never dequeued. -/
theorem cycleBound_not_ordered (cells : CellStore) (hne : "" ∉ nodesOf cells)
    (k : String) (h : cycleBound cells k) : k ∉ orderedOf cells := by
  obtain ⟨c, hcyc, hk⟩ := h
  have hcno := cycle_not_ordered cells hne c hcyc
  rcases hk with rfl | hdep
  · exact hcno
  · intro hmem
    obtain ⟨⟨i, hi⟩, hget⟩ := List.mem_iff_get.1 hmem
    obtain ⟨j, hj, hjc, _⟩ := dependsOn_idx cells hne k c hdep i hi hget
    exact hcno (hjc ▸ List.get_mem _ _ _)

/-- A formula cell the Kahn pass never dequeues is cycle-bound: the
never-dequeued cells all keep an unordered precedent, and following those
precedents must revisit a cell. -/
theorem unordered_cycleBound (cells : CellStore) (hne : "" ∉ nodesOf cells)
    (k : String) (hkN : k ∈ nodesOf cells) (hko : k ∉ orderedOf cells) :
    cycleBound cells k := by
  classical
  obtain ⟨hI, hq⟩ := kahnOf_inv cells hne
  have hstep : ∀ c, c ∈ nodesOf cells → c ∉ orderedOf cells →
      ∃ d, (d ∈ nodesOf cells ∧ d ∉ orderedOf cells) ∧ formulaDep cells c d := by
    intro c hc hco
    have hz : ¬(remCount cells (orderedOf cells) c = 0) := by
      intro h0
      have hzq : c ∈ (kahnOf cells).ordered ∨ c ∈ (kahnOf cells).queue :=
        hI.zeroQ c hc h0
      rcases hzq with h | h
      · exact hco h
      · rw [hq] at h
        cases h
    have hex : ∃ d ∈ precedentsOf cells c, d ∉ orderedOf cells := by
      by_contra hcon
      push_neg at hcon
      exact hz ((remCount_zero_iff cells (orderedOf cells) c).2 hcon)
    obtain ⟨d, hdp, hdo⟩ := hex
    exact ⟨d, ⟨precedentsOf_subset_nodes cells c d hdp, hdo⟩, hc, hdp⟩
  have hstep' : ∀ c, ∃ d, (c ∈ nodesOf cells ∧ c ∉ orderedOf cells) →
      ((d ∈ nodesOf cells ∧ d ∉ orderedOf cells) ∧ formulaDep cells c d) := by
    intro c
    by_cases h : c ∈ nodesOf cells ∧ c ∉ orderedOf cells
    · obtain ⟨d, hd⟩ := hstep c h.1 h.2
      exact ⟨d, fun _ => hd⟩
    · exact ⟨c, fun hc => absurd hc h⟩
  choose f hf using hstep'
  have hFL : ∀ n, f^[n] k ∈ nodesOf cells ∧ f^[n] k ∉ orderedOf cells := by
    intro n
    induction n with
    | zero => exact ⟨hkN, hko⟩
    | succ n ih =>
      rw [Function.iterate_succ_apply']
      exact (hf (f^[n] k) ih).1
  have hFdep : ∀ n, formulaDep cells (f^[n] k) (f^[n + 1] k) := by
    intro n
    rw [Function.iterate_succ_apply']
    exact (hf (f^[n] k) (hFL n)).2
  have hchain : ∀ m n, m < n → dependsOn cells (f^[m] k) (f^[n] k) := by
    intro m n
    induction n with
    | zero => exact fun h => absurd h (Nat.not_lt_zero m)
    | succ n ih =>
      intro h
      by_cases hmn : m = n
      · subst hmn
        exact Relation.TransGen.single (hFdep m)
      · exact Relation.TransGen.tail (ih (by omega)) (hFdep n)
  have main : ∀ a b : ℕ, a < b → f^[a] k = f^[b] k → cycleBound cells k := by
    intro a b hlt heq
    refine ⟨f^[a] k, ?_, ?_⟩
    · have h1 := hchain a b hlt
      rw [← heq] at h1
      exact h1
    · rcases Nat.eq_zero_or_pos a with rfl | hpos
      · exact Or.inl (Function.iterate_zero_apply f k).symm
      · refine Or.inr ?_
        have h2 := hchain 0 a hpos
        rw [Function.iterate_zero_apply] at h2
        exact h2
  have hLmem : ∀ n, f^[n] k ∈ (nodesOf cells).filter
      (fun c => !((orderedOf cells).contains c)) := by
    intro n
    rw [List.mem_filter]
    refine ⟨(hFL n).1, ?_⟩
    rw [(contains_eq_false_iff _ _).2 (hFL n).2]
    rfl
  have hmaps : ∀ n ∈ Finset.range
      (((nodesOf cells).filter (fun c => !((orderedOf cells).contains c))).length + 1),
      f^[n] k ∈ ((nodesOf cells).filter
        (fun c => !((orderedOf cells).contains c))).toFinset := by
    intro n _
    rw [List.mem_toFinset]
    exact hLmem n
  have hcard : ((nodesOf cells).filter
      (fun c => !((orderedOf cells).contains c))).toFinset.card <
      (Finset.range (((nodesOf cells).filter
        (fun c => !((orderedOf cells).contains c))).length + 1)).card := by
    rw [Finset.card_range]
    exact Nat.lt_succ_of_le (List.toFinset_card_le _)
  obtain ⟨a, ha, b, hb, hab, heq⟩ :=
    Finset.exists_ne_map_eq_of_card_lt_of_maps_to hcard hmaps
  rcases Nat.lt_or_ge a b with hlt | hge
  · exact main a b hlt heq
  · exact main b a (by omega) heq.symm

theorem nodesOf_no_empty (cells : CellStore) (hne : "" ∉ cells.map Prod.fst) :
    "" ∉ nodesOf cells := fun hcon => hne (formulas_keys_subset_store cells "" hcon)

/-- A formula key of the parse pass comes from a stored `'='` text that
parses, is recorded with its AST, and is not a parse error. -/
theorem formula_key_data (cells : CellStore) (hnd : (cells.map Prod.fst).Nodup)
    (k : String) (hk : k ∈ (parsePhase cells).formulas.keys) :
    ∃ v ast, storeGet? cells k = some v ∧ startsWithEq v = true ∧
      parseFormula (tokenize (strDropFirst v)) = some ast ∧
      (parsePhase cells).formulas.get? k = some ast ∧
      k ∉ (parsePhase cells).formulaErrors := by
  have hks := formulas_keys_subset_store cells k hk
  have hg : storeGet? cells k ≠ none :=
    fun hcon => (storeGet?_eq_none_iff cells k).1 hcon hks
  obtain ⟨v, hv⟩ := Option.ne_none_iff_exists'.1 hg
  have po := parsePhase_at cells k v hnd hv
  unfold parseOutcome at po
  cases hse : startsWithEq v with
  | false =>
    rw [hse] at po
    exfalso
    obtain ⟨w, hw⟩ := SMap.isSome_get?_of_has _ _ ((SMap.mem_keys_iff_has _ _).1 hk)
    rw [po.2.1] at hw
    cases hw
  | true =>
    rw [hse] at po
    cases hpf : parseFormula (tokenize (strDropFirst v)) with
    | none =>
      rw [hpf] at po
      exfalso
      obtain ⟨w, hw⟩ := SMap.isSome_get?_of_has _ _ ((SMap.mem_keys_iff_has _ _).1 hk)
      rw [po.2.1] at hw
      cases hw
    | some ast =>
      rw [hpf] at po
      exact ⟨v, ast, hv, hse, hpf, po.2.1, po.2.2.1⟩

/-- A formula cell the Kahn pass never dequeues displays the cycle marker. -/
theorem unordered_display_cycle (cells : CellStore) (hnd : (cells.map Prod.fst).Nodup)
    (k : String) (hk : k ∈ (parsePhase cells).formulas.keys)
    (hko : k ∉ orderedOf cells) :
    (calculateDisplayCells cells).get? k = some "#CYCLE" := by
  obtain ⟨v, ast, hv, hse, hpf, hfk, hfe⟩ := formula_key_data cells hnd k hk
  have hcyc : (computedOf cells).get? k = some (.str "#CYCLE") := by
    unfold computedOf cyclePhase
    apply cycleFold_marks _ _ _ (parsePhase_nodup cells).2.1 hk
    apply SMap.has_eq_false_of_get?_eq_none
    exact evalPhase_get_none cells _ _ k hko
  obtain ⟨w, hw, hdisp⟩ := display_formula_ok cells k v ast hnd hv hse hpf
  rw [hcyc] at hw
  injection hw with hw
  rw [hdisp, ← hw]
  rfl

/-- A dequeued formula cell displays the formatted value its evaluation
produced. -/
theorem ordered_display_value (cells : CellStore) (hnd : (cells.map Prod.fst).Nodup)
    (k : String) (hk : k ∈ (parsePhase cells).formulas.keys)
    (hko : k ∈ orderedOf cells) :
    ∃ w, (evalPhase cells (parsePhase cells) (orderedOf cells)).get? k = some w ∧
      (calculateDisplayCells cells).get? k = some (formatValue w) := by
  obtain ⟨v, ast, hv, hse, hpf, hfk, hfe⟩ := formula_key_data cells hnd k hk
  have hhase : (evalPhase cells (parsePhase cells) (orderedOf cells)).has k = true := by
    unfold evalPhase
    rw [evalFold_has]
    exact Or.inr hko
  obtain ⟨w, hw⟩ := SMap.isSome_get?_of_has _ _ hhase
  have hcw : (computedOf cells).get? k = some w := by
    unfold computedOf cyclePhase
    rw [cycleFold_get_of_has _ _ _ hhase]
    exact hw
  obtain ⟨w2, hw2, hdisp⟩ := display_formula_ok cells k v ast hnd hv hse hpf
  rw [hcw] at hw2
  injection hw2 with hw2
  exact ⟨w, hw, by rw [hdisp, hw2]⟩

/-- C3 (corrected): over a Cell Store with unique, non-empty keys, a formula
cell is never dequeued by the Kahn pass exactly when it is cycle-bound (it
lies on a formula-cell dependency cycle or depends transitively, through
formula cells only, on one); never-dequeued formula cells display the
`'#CYCLE'` marker, while every dequeued formula cell is evaluated and
displays the formatted value of its evaluation result — which is only
*marked* `#CYCLE` when never dequeued, though the displayed text can still
read `'#CYCLE'` for an evaluated cell when that very text flows in as a
referenced cell's raw value (`claim_C3_counterexample`). -/
theorem claim_C3 (cells : CellStore) (hnd : (cells.map Prod.fst).Nodup)
    (hne : "" ∉ cells.map Prod.fst) (k : String)
    (hk : k ∈ (parsePhase cells).formulas.keys) :
    (k ∉ orderedOf cells ↔ cycleBound cells k) ∧
    (k ∉ orderedOf cells → (calculateDisplayCells cells).get? k = some "#CYCLE") ∧
    (k ∈ orderedOf cells →
      ∃ w, (evalPhase cells (parsePhase cells) (orderedOf cells)).get? k = some w ∧
        (calculateDisplayCells cells).get? k = some (formatValue w)) := by
  have hne' := nodesOf_no_empty cells hne
  exact ⟨⟨fun h => unordered_cycleBound cells hne' k hk h,
    fun h => cycleBound_not_ordered cells hne' k h⟩,
    fun h => unordered_display_cycle cells hnd k hk h,
    fun h => ordered_display_value cells hnd k hk h⟩

/-- The claim's `iff` fails in the display reading it states: the formula
cell `'0:1'` (`'=A1'`) IS dequeued by the Kahn pass (its reference is a
literal, so it has indegree 0), yet it displays `'#CYCLE'`, because the
referenced literal's raw text is exactly that string. -/
theorem claim_C3_counterexample :
    startsWithEq "=A1" = true ∧
    "0:1" ∈ orderedOf [("0:0", "#CYCLE"), ("0:1", "=A1")] ∧
    (calculateDisplayCells [("0:0", "#CYCLE"), ("0:1", "=A1")]).get? "0:1" =
      some "#CYCLE" := by
  with_unfolding_all decide

/-- The claim's scenario, settled by the corrected theorem plus evaluation:
`B1 = '2'`, `C1 = '3'`, and the mutually referencing `A2`, `B2` display
`'#CYCLE'` and are indeed cycle-bound. -/
theorem claim_C3_witness :
    (calculateDisplayCells [("0:0", "1"), ("0:1", "=A1+1"), ("0:2", "=B1+1"),
      ("1:0", "=B2"), ("1:1", "=A2")]).get? "0:1" = some "2" ∧
    (calculateDisplayCells [("0:0", "1"), ("0:1", "=A1+1"), ("0:2", "=B1+1"),
      ("1:0", "=B2"), ("1:1", "=A2")]).get? "0:2" = some "3" ∧
    (calculateDisplayCells [("0:0", "1"), ("0:1", "=A1+1"), ("0:2", "=B1+1"),
      ("1:0", "=B2"), ("1:1", "=A2")]).get? "1:0" = some "#CYCLE" ∧
    (calculateDisplayCells [("0:0", "1"), ("0:1", "=A1+1"), ("0:2", "=B1+1"),
      ("1:0", "=B2"), ("1:1", "=A2")]).get? "1:1" = some "#CYCLE" ∧
    cycleBound [("0:0", "1"), ("0:1", "=A1+1"), ("0:2", "=B1+1"),
      ("1:0", "=B2"), ("1:1", "=A2")] "1:0" ∧
    cycleBound [("0:0", "1"), ("0:1", "=A1+1"), ("0:2", "=B1+1"),
      ("1:0", "=B2"), ("1:1", "=A2")] "1:1" := by
  refine ⟨by with_unfolding_all decide, by with_unfolding_all decide,
    by with_unfolding_all decide, by with_unfolding_all decide, ?_, ?_⟩
  · exact (claim_C3 [("0:0", "1"), ("0:1", "=A1+1"), ("0:2", "=B1+1"),
      ("1:0", "=B2"), ("1:1", "=A2")] (by decide) (by decide) "1:0"
      (by with_unfolding_all decide)).1.1 (by with_unfolding_all decide)
  · exact (claim_C3 [("0:0", "1"), ("0:1", "=A1+1"), ("0:2", "=B1+1"),
      ("1:0", "=B2"), ("1:1", "=A2")] (by decide) (by decide) "1:1"
      (by with_unfolding_all decide)).1.1 (by with_unfolding_all decide)

end Formulas
